import Mathlib

/-!
Verification of the vlt secret-store engine (package `pkg/vault`).

This file gives a shallow embedding of the pure core of the repository:
the dynamic Go values handled by the engine (`GoVal`), flattening
(`flatten.go`), diffing and version-path parsing (`compare.go`), the
timeline and changes-ago reconstruction (second half of the vault
package), and snapshot creation / restoration (the snapshot module).
Go maps are embedded as association lists iterated in list order (Go map
iteration order is unspecified; all properties proved here are either
order-insensitive or are stated about this deterministic embedding).
-/

set_option autoImplicit false

namespace Vlt

/-- Dynamic Go value (`any`) as stored in vault secrets: a string, an
integer, or a nested `map[string]any` (embedded as an association list). -/
inductive GoVal where
  | str (s : String)
  | int (n : Int)
  | vmap (entries : List (String × GoVal))
deriving Inhabited

/-- GoMap embeds `map[string]any`. -/
abbrev GoMap := List (String × GoVal)

/-- First-match lookup in an association list, the embedding of a Go map
read `m[k]`. -/
def lookupAL {α : Type} (m : List (String × α)) (k : String) : Option α :=
  match m with
  | [] => none
  | (k', v) :: rest => if k' = k then some v else lookupAL rest k

/-- Go map assignment `m[k] = v`: replace the value of an existing key,
otherwise append the new binding. -/
def insertAL {α : Type} (m : List (String × α)) (k : String) (v : α) :
    List (String × α) :=
  match m with
  | [] => [(k, v)]
  | (k', v') :: rest =>
    if k' = k then (k', v) :: rest else (k', v') :: insertAL rest k v

/-- Keys of an embedded Go map. -/
def keysOf {α : Type} (m : List (String × α)) : List String :=
  m.map Prod.fst

/-- Insertion of one element into a list sorted ascending on a string
projection, used to embed the deterministic sorts of the engine. -/
def insertSortedOn {α : Type} (key : α → String) (p : α) : List α → List α
  | [] => [p]
  | q :: rest =>
    if key p < key q then p :: q :: rest else q :: insertSortedOn key p rest

/-- Sort ascending on a string projection (insertion sort; embeds the
`sort.Slice` calls comparing `.Key <`). -/
def sortOn {α : Type} (key : α → String) (l : List α) : List α :=
  l.foldr (insertSortedOn key) []

/-- Rendering of a Go int by `fmt.Sprintf with the v verb`: decimal
digits, with a leading minus sign for negative values. -/
def renderInt (n : Int) : String :=
  if n < 0 then "-" ++ toString n.natAbs else toString n.toNat

/-- Join rendered entries with single spaces. -/
def joinSpace : List String → String
  | [] => ""
  | [s] => s
  | s :: rest => s ++ " " ++ joinSpace rest

mutual

/-- Embedding of the default Go string rendering `fmt.Sprintf` with the
`v` verb, restricted to the value shapes of `GoVal`: strings render as
themselves, ints in decimal, and maps as `map[k1:v1 k2:v2]` over their
entries. (Go renders map entries in sorted key order; entries of the
maps this engine compares are produced in a canonical order, so the
entry order used here is the list order of the embedding.) -/
def GoVal.render : GoVal → String
  | .str s => s
  | .int n => renderInt n
  | .vmap es => "map[" ++ joinSpace (GoVal.renderEntries es) ++ "]"

/-- Render each entry of a map as `key:value`. -/
def GoVal.renderEntries : List (String × GoVal) → List String
  | [] => []
  | (k, v) :: rest => (k ++ ":" ++ GoVal.render v) :: GoVal.renderEntries rest

end

mutual

/-- Embedding of `flattenRecursive` from `flatten.go`: walk the entries of
a nested map, descending into `map[string]any` values with a dot-joined
key and writing every other value into the result map. -/
def flattenRecursive : List (String × GoVal) → String → GoMap → GoMap
  | [], _, acc => acc
  | (key, value) :: rest, pref, acc =>
    let fullKey := if pref = "" then key else pref ++ "." ++ key
    flattenRecursive rest pref (flattenValueInto value fullKey acc)

/-- The switch of `flattenRecursive` on one value: descend into a map,
write anything else. -/
def flattenValueInto : GoVal → String → GoMap → GoMap
  | .vmap m, fullKey, acc => flattenRecursive m fullKey acc
  | v, fullKey, acc => insertAL acc fullKey v

end

/-- Embedding of `Flatten` from `flatten.go`. -/
def flatten (data : GoMap) : GoMap :=
  flattenRecursive data "" []

/-- Embedding of `FlattenAndExtractValues` from `compare.go`: flatten,
then rewrite the key `value` to the empty key (in directory context) and
strip a trailing `.value` from nested keys. -/
def flattenAndExtractValues (data : GoMap) (forDirectory : Bool) : GoMap :=
  (flatten data).foldl
    (fun result kv =>
      let key :=
        if forDirectory ∧ kv.1 = "value" then ""
        else if kv.1.endsWith ".value" then kv.1.dropRight 6
        else kv.1
      insertAL result key kv.2)
    []

/-! ## SHA-256 (the hash used by `hashValue` in `compare.go`) -/

/-- Big-endian bytes of a natural number, fixed width `k`. -/
def natToBytesBE : Nat → Nat → List Nat
  | 0, _ => []
  | k + 1, n => natToBytesBE k (n / 256) ++ [n % 256]

/-- One 32-bit word from four big-endian bytes. -/
def wordOfBytes (a b c d : Nat) : Nat :=
  ((a * 256 + b) * 256 + c) * 256 + d

/-- Truncation to 32 bits. -/
def w32 (n : Nat) : Nat := n % 4294967296

/-- Right rotation of a 32-bit word. -/
def rotr32 (n k : Nat) : Nat :=
  w32 ((n / 2 ^ k) + n * 2 ^ (32 - k))

/-- Bitwise complement of a 32-bit word. -/
def not32 (n : Nat) : Nat := Nat.xor n 4294967295

/-- SHA-256 round constants. -/
def sha256K : List Nat :=
  [1116352408, 1899447441, 3049323471, 3921009573, 961987163,
   1508970993, 2453635748, 2870763221, 3624381080, 310598401,
   607225278, 1426881987, 1925078388, 2162078206, 2614888103,
   3248222580, 3835390401, 4022224774, 264347078, 604807628,
   770255983, 1249150122, 1555081692, 1996064986, 2554220882,
   2821834349, 2952996808, 3210313671, 3336571891, 3584528711,
   113926993, 338241895, 666307205, 773529912, 1294757372,
   1396182291, 1695183700, 1986661051, 2177026350, 2456956037,
   2730485921, 2820302411, 3259730800, 3345764771, 3516065817,
   3600352804, 4094571909, 275423344, 430227734, 506948616,
   659060556, 883997877, 958139571, 1322822218, 1537002063,
   1747873779, 1955562222, 2024104815, 2227730452, 2361852424,
   2428436474, 2756734187, 3204031479, 3329325298]

/-- Split a 64-byte block into sixteen 32-bit words. -/
def wordsOfBlock : List Nat → List Nat
  | a :: b :: c :: d :: rest => wordOfBytes a b c d :: wordsOfBlock rest
  | _ => []

/-- Small sigma 0. -/
def ssig0 (x : Nat) : Nat :=
  Nat.xor (Nat.xor (rotr32 x 7) (rotr32 x 18)) (x / 2 ^ 3)

/-- Small sigma 1. -/
def ssig1 (x : Nat) : Nat :=
  Nat.xor (Nat.xor (rotr32 x 17) (rotr32 x 19)) (x / 2 ^ 10)

/-- Big sigma 0. -/
def bsig0 (x : Nat) : Nat :=
  Nat.xor (Nat.xor (rotr32 x 2) (rotr32 x 13)) (rotr32 x 22)

/-- Big sigma 1. -/
def bsig1 (x : Nat) : Nat :=
  Nat.xor (Nat.xor (rotr32 x 6) (rotr32 x 11)) (rotr32 x 25)

/-- Extend sixteen schedule words to sixty-four. -/
def extendSchedule : Nat → List Nat → List Nat
  | 0, ws => ws
  | fuel + 1, ws =>
    let t := ws.length
    let w := w32 (ssig1 (ws.getD (t - 2) 0) + ws.getD (t - 7) 0 +
                  ssig0 (ws.getD (t - 15) 0) + ws.getD (t - 16) 0)
    extendSchedule fuel (ws ++ [w])

/-- One SHA-256 compression round; the state is `[a,b,c,d,e,f,g,h]`. -/
def sha256Round (st : List Nat) (kw : Nat × Nat) : List Nat :=
  match st with
  | [a, b, c, d, e, f, g, h] =>
    let ch := Nat.xor (Nat.land e f) (Nat.land (not32 e) g)
    let maj := Nat.xor (Nat.xor (Nat.land a b) (Nat.land a c)) (Nat.land b c)
    let t1 := w32 (h + bsig1 e + ch + kw.1 + kw.2)
    let t2 := w32 (bsig0 a + maj)
    [w32 (t1 + t2), a, b, c, w32 (d + t1), e, f, g]
  | other => other

/-- Process one 64-byte block against the running hash state. -/
def sha256Block (h : List Nat) (block : List Nat) : List Nat :=
  let ws := extendSchedule 48 (wordsOfBlock block)
  let st := (sha256K.zip ws).foldl sha256Round h
  (h.zip st).map (fun p => w32 (p.1 + p.2))

/-- Split padded input into 64-byte blocks (fuel-driven structural
recursion; the fuel passed by `sha256Bytes` always suffices). -/
def toBlocksFuel : Nat → List Nat → List (List Nat)
  | 0, _ => []
  | fuel + 1, l => if l = [] then [] else l.take 64 :: toBlocksFuel fuel (l.drop 64)

/-- Split padded input into 64-byte blocks. -/
def toBlocks (l : List Nat) : List (List Nat) :=
  toBlocksFuel (l.length / 64 + 1) l

/-- SHA-256 of a byte list, as 32 output bytes. -/
def sha256Bytes (msg : List Nat) : List Nat :=
  let padZeros := (119 - msg.length % 64) % 64
  let padded := msg ++ 0x80 :: List.replicate padZeros 0 ++
    natToBytesBE 8 (msg.length * 8)
  let h0 := [1779033703, 3144134277, 1013904242, 2773480762,
             1359893119, 2600822924, 528734635, 1541459225]
  ((toBlocks padded).foldl sha256Block h0).flatMap (natToBytesBE 4)

/-- Lowercase hex digit. -/
def hexDigit (n : Nat) : Char :=
  if n < 10 then Char.ofNat (48 + n) else Char.ofNat (87 + n)

/-- Lowercase hex encoding of a byte list (`hex.EncodeToString`). -/
def hexEncode (bytes : List Nat) : String :=
  ⟨bytes.flatMap (fun b => [hexDigit (b / 16), hexDigit (b % 16)])⟩

/-- UTF-8 encoding of one unicode code point. -/
def utf8EncodeChar (c : Nat) : List Nat :=
  if c < 0x80 then [c]
  else if c < 0x800 then [0xc0 + c / 64, 0x80 + c % 64]
  else if c < 0x10000 then [0xe0 + c / 4096, 0x80 + c / 64 % 64, 0x80 + c % 64]
  else [0xf0 + c / 262144, 0x80 + c / 4096 % 64, 0x80 + c / 64 % 64, 0x80 + c % 64]

/-- UTF-8 bytes of a string (Go strings are UTF-8 byte slices). -/
def utf8Bytes (s : String) : List Nat :=
  s.data.flatMap (fun ch => utf8EncodeChar ch.toNat)

/-- Embedding of `hashValue` from `compare.go`: the lowercase-hex SHA-256
digest of the default string rendering of the value. -/
def hashValue (value : GoVal) : String :=
  hexEncode (sha256Bytes (utf8Bytes value.render))


/-! ## DiffEngine: `CompareSecrets` from `compare.go` -/

/-- Embedding of `DiffEntry`: a key present in only one source, with the
rendered value. -/
structure DiffEntry where
  key : String
  value : String
deriving DecidableEq, Inhabited

/-- Embedding of `ChangedEntry`: a key present in both sources with
differing values. -/
structure ChangedEntry where
  key : String
  firstLen : Nat
  secondLen : Nat
  firstValue : String
  secondValue : String
deriving DecidableEq, Inhabited

/-- Embedding of `DiffResult`. -/
structure DiffResult where
  onlyInFirst : List DiffEntry
  onlyInSecond : List DiffEntry
  changed : List ChangedEntry
  unchanged : Nat
deriving DecidableEq, Inhabited

/-- Embedding of `DiffResult.HasDifferences`. -/
def DiffResult.hasDifferences (d : DiffResult) : Bool :=
  d.onlyInFirst.length > 0 || d.onlyInSecond.length > 0 || d.changed.length > 0

/-- The first pass of `CompareSecrets`: classify one key of the first
map against the second map. -/
def comparePass1 (secrets2 : GoMap) (result : DiffResult) (kv : String × GoVal) :
    DiffResult :=
  let val1Str := kv.2.render
  match lookupAL secrets2 kv.1 with
  | some val2 =>
    let val2Str := val2.render
    if hashValue kv.2 ≠ hashValue val2 then
      { result with changed := result.changed ++
          [⟨kv.1, val1Str.length, val2Str.length, val1Str, val2Str⟩] }
    else
      { result with unchanged := result.unchanged + 1 }
  | none =>
    { result with onlyInFirst := result.onlyInFirst ++ [⟨kv.1, val1Str⟩] }

/-- The second pass of `CompareSecrets`: record one key of the second
map when it is absent from the first map. -/
def comparePass2 (secrets1 : GoMap) (result : DiffResult) (kv : String × GoVal) :
    DiffResult :=
  match lookupAL secrets1 kv.1 with
  | some _ => result
  | none =>
    { result with onlyInSecond := result.onlyInSecond ++ [⟨kv.1, kv.2.render⟩] }

/-- Embedding of `CompareSecrets` from `compare.go`: classify every key
of the first map as only-in-first, changed (by hash mismatch) or
unchanged; collect keys of the second map absent from the first; sort
the three lists by key. -/
def compareSecrets (secrets1 secrets2 : GoMap) : DiffResult :=
  let r0 : DiffResult := secrets1.foldl (comparePass1 secrets2) ⟨[], [], [], 0⟩
  let r1 : DiffResult := secrets2.foldl (comparePass2 secrets1) r0
  { r1 with
      onlyInFirst := sortOn DiffEntry.key r1.onlyInFirst
      onlyInSecond := sortOn DiffEntry.key r1.onlyInSecond
      changed := sortOn ChangedEntry.key r1.changed }

/-- A concrete first map for exercising `compareSecrets`. -/
def compareSampleA : GoMap := [("a", GoVal.str "1"), ("b", GoVal.int 2)]

/-- A concrete second map for exercising `compareSecrets`. -/
def compareSampleB : GoMap := [("b", GoVal.int 3), ("c", GoVal.str "z")]

/-! ## VersionReferenceResolver: `ParseVersionedPath` from `compare.go` -/

/-- Embedding of `VersionSpec` from `compare.go`. -/
structure VersionSpec where
  version : Int := 0
  changesAgo : Int := 0
  isPrev : Bool := false
  isChangesAgo : Bool := false
deriving DecidableEq, Inhabited

/-- Embedding of `VersionSpec.HasVersion`. -/
def VersionSpec.hasVersion (v : VersionSpec) : Bool :=
  v.version > 0 || v.isPrev || v.isChangesAgo

/-- Value of a nonempty all-digit character list, `none` otherwise. -/
def digitsVal : List Char → Option Nat
  | [] => none
  | [c] => if c.isDigit then some (c.toNat - 48) else none
  | c :: rest =>
    if c.isDigit then
      (digitsVal rest).map (fun n => (c.toNat - 48) * 10 ^ rest.length + n)
    else none

/-- Decimal integer literal with optional sign, as accepted by Go
`strconv.Atoi` before its range check: an optional `+` or `-` followed by
one or more ASCII digits. Unbounded value. -/
def intLiteral (s : String) : Option Int :=
  match s.data with
  | '+' :: rest => (digitsVal rest).map Int.ofNat
  | '-' :: rest => (digitsVal rest).map (fun n => -(n : Int))
  | l => (digitsVal l).map Int.ofNat

/-- Embedding of Go `strconv.Atoi` (`ParseInt(s, 10, 0)` on a 64-bit
platform): parse an optional sign and decimal digits, and fail (return
an error, here `none`) when the value does not fit in a signed 64-bit
integer. -/
def goAtoi (s : String) : Option Int :=
  match intLiteral s with
  | some n => if -(2 ^ 63 : Int) ≤ n ∧ n ≤ 2 ^ 63 - 1 then some n else none
  | none => none

/-- Index of the last occurrence of a character in a character list
(embedding of `strings.LastIndex` for a one-character needle). -/
def lastIndexOfChar (c : Char) : List Char → Option Nat
  | [] => none
  | x :: rest =>
    match lastIndexOfChar c rest with
    | some i => some (i + 1)
    | none => if x = c then some 0 else none

/-- Embedding of `ParseVersionedPath` from `compare.go`: split at the
last `@`; map suffix `prev`/`previous` to the previous-version spec, a
negative Atoi result to a changes-ago spec, a positive Atoi result to an
exact version spec, and anything else (including `0` and Atoi failures)
to the whole original string with an empty spec. -/
def parseVersionedPath (path : String) : String × VersionSpec :=
  match lastIndexOfChar '@' path.data with
  | none => (path, {})
  | some idx =>
    let versionStr : String := ⟨path.data.drop (idx + 1)⟩
    let basePath : String := ⟨path.data.take idx⟩
    if versionStr = "prev" ∨ versionStr = "previous" then
      (basePath, { isPrev := true })
    else
      match goAtoi versionStr with
      | some version =>
        if version < 0 then
          (basePath, { changesAgo := -version, isChangesAgo := true })
        else if version > 0 then
          (basePath, { version := version })
        else (path, {})
      | none => (path, {})

/-! ## Store model for the timeline and changes-ago operations -/

/-- Embedding of `VersionInfo` (metadata of one retained or discarded
version of a secret). -/
structure VersionInfo where
  version : Nat
  createdTime : Nat
  destroyed : Bool := false
  deleted : Bool := false
deriving DecidableEq, Inhabited

/-- Read-only view of the external vault used by the timeline and
reconstruction operations: the recursive key listing, the raw version
map of each secret, and versioned reads. -/
structure Store where
  listSecretPaths : String → List String
  rawVersions : String → List VersionInfo
  readSecretVersion : String → Nat → Option GoMap

/-- Insertion of one element into a list sorted descending on a natural
projection. -/
def insertSortedDescOn {α : Type} (key : α → Nat) (p : α) : List α → List α
  | [] => [p]
  | q :: rest =>
    if key p > key q then p :: q :: rest else q :: insertSortedDescOn key p rest

/-- Sort descending on a natural projection (insertion sort; embeds the
`sort.Slice` calls comparing with `After` or `>`). -/
def sortDescOn {α : Type} (key : α → Nat) (l : List α) : List α :=
  l.foldr (insertSortedDescOn key) []

/-- Embedding of `GetVersionHistory`: the retained (non-destroyed,
non-deleted) versions of a secret, sorted by version descending (newest
first). -/
def getVersionHistory (s : Store) (path : String) : List VersionInfo :=
  sortDescOn VersionInfo.version
    ((s.rawVersions path).filter (fun v => !v.destroyed && !v.deleted))

/-- Embedding of `TimelineEntry`. -/
structure TimelineEntry where
  time : Nat
  secretPath : String
  fullPath : String
  version : Nat
  isCreation : Bool
deriving DecidableEq, Inhabited

/-- Error values of the timeline and reconstruction operations, one
constructor per `fmt.Errorf` site, carrying the formatted arguments. -/
inductive VltError where
  | noSecretsAt (path : String)
  | noVersionHistory (path : String)
  | noSecretsUnder (path : String)
  | noChangesFound (path : String)
  | invalidDepth (total : Nat) (path : String) (requested : Nat)
  | noSecretsAtChangesAgo (changesAgo : Nat)
deriving DecidableEq

/-- True exactly on the depth-exceeded error (the error the spec calls
`InvalidDepth`). -/
def isInvalidDepth : Except VltError GoMap → Bool
  | .error (.invalidDepth _ _ _) => true
  | _ => false

/-- The per-key fold step of `GetTimeline`. -/
def timelineStep (s : Store) (path : String) (tl : List TimelineEntry)
    (secretPath : String) : List TimelineEntry :=
  let fullPath := path ++ "/" ++ secretPath
  tl ++ (getVersionHistory s fullPath).map
    (fun v => ⟨v.createdTime, secretPath, fullPath, v.version, v.version == 1⟩)

/-- Embedding of `GetTimeline`: one entry per retained version of every
key under the path, merged and sorted by time descending. Fails when the
path has no keys, or when no key contributed any history entry. -/
def getTimeline (s : Store) (path : String) : Except VltError (List TimelineEntry) :=
  let paths := s.listSecretPaths path
  if paths.length = 0 then .error (.noSecretsAt path)
  else
    let timeline := paths.foldl (timelineStep s path) []
    if timeline.length = 0 then .error (.noVersionHistory path)
    else .ok (sortDescOn TimelineEntry.time timeline)

/-- Embedding of the local `changeEvent` record of `GetStateAtChangesAgo`. -/
structure ChangeEvent where
  secretPath : String
  version : Nat
  createdTime : Nat
deriving DecidableEq, Inhabited

/-- Merge the flattened fields of one secret into the directory result
map, under the relative path of the secret (the common tail of
`GetPrevVersions` and `GetStateAtChangesAgo`). -/
def mergeFlattened (r : GoMap) (relPath : String) (secrets : GoMap) : GoMap :=
  (flattenAndExtractValues secrets true).foldl
    (fun acc kv =>
      if kv.1 = "" then insertAL acc relPath kv.2
      else insertAL acc (relPath ++ "." ++ kv.1) kv.2)
    r

/-- The per-key scan step of `GetStateAtChangesAgo`: record the change
events (retained versions greater than one) and the current version of
one key; keys with no retained history are skipped. -/
def scanStep (s : Store) (basePath : String)
    (acc : List ChangeEvent × List (String × Nat)) (relPath : String) :
    List ChangeEvent × List (String × Nat) :=
  let history := getVersionHistory s (basePath ++ "/" ++ relPath)
  match history with
  | [] => acc
  | h :: _ =>
    (acc.1 ++ (history.filter (fun v => v.version > 1)).map
        (fun v => ⟨relPath, v.version, v.createdTime⟩),
     acc.2 ++ [(relPath, h.version)])

/-- The undo step of `GetStateAtChangesAgo`: when the pointer of the
key of this event equals the event version, set it to one less. -/
def undoStep (m : List (String × Nat)) (change : ChangeEvent) :
    List (String × Nat) :=
  match lookupAL m change.secretPath with
  | some currentVer =>
    if currentVer = change.version then
      insertAL m change.secretPath (change.version - 1)
    else m
  | none => m

/-- Read one key at one version and merge its flattened fields into the
result; a failed or empty read skips the key. -/
def readMerge (s : Store) (basePath : String) (r : GoMap) (kv : String × Nat) :
    GoMap :=
  match s.readSecretVersion (basePath ++ "/" ++ kv.1) kv.2 with
  | none => r
  | some secrets => mergeFlattened r kv.1 secrets

/-- The final read step of `GetStateAtChangesAgo`: keys whose computed
version dropped below one are skipped, the rest are read and merged. -/
def readMergeStep (s : Store) (basePath : String) (r : GoMap) (kv : String × Nat) :
    GoMap :=
  if kv.2 < 1 then r else readMerge s basePath r kv

/-- Embedding of `GetStateAtChangesAgo`: collect every retained version
with version greater than one as a change event, sort the merged events
by time descending, undo the first `changesAgo` of them against the
per-key current-version pointers, then read every key at its computed
version and merge the flattened fields. (The Go parameter is an `int`;
the callers pass the nonnegative `ChangesAgo` field, embedded as `Nat`.) -/
def getStateAtChangesAgo (s : Store) (basePath : String) (changesAgo : Nat) :
    Except VltError GoMap :=
  let secretPaths := s.listSecretPaths basePath
  if secretPaths.length = 0 then .error (.noSecretsUnder basePath)
  else
    let scan := secretPaths.foldl (scanStep s basePath) ([], [])
    if scan.1.length = 0 then .error (.noChangesFound basePath)
    else
      let sorted := sortDescOn ChangeEvent.createdTime scan.1
      if changesAgo > sorted.length then
        .error (.invalidDepth sorted.length basePath changesAgo)
      else
        let finalVersions := (sorted.take changesAgo).foldl undoStep scan.2
        let result := finalVersions.foldl (readMergeStep s basePath) []
        if result.length = 0 then .error (.noSecretsAtChangesAgo changesAgo)
        else .ok result

/-! ## Specification-side definitions for the changes-ago claims

The following definitions follow the wording of the specification (the
pointer walk of section 4.4), to be compared with the embedding above. -/

/-- Change events of one key per the spec: one event per retained version
with version greater than one (version one is a creation, not a change). -/
def changeEventsOf (s : Store) (basePath relPath : String) : List ChangeEvent :=
  ((getVersionHistory s (basePath ++ "/" ++ relPath)).filter
      (fun v => v.version > 1)).map
    (fun v => ⟨relPath, v.version, v.createdTime⟩)

/-- The merged change stream of a directory per the spec: every change
event of every key, in time-descending order. -/
def changeStream (s : Store) (basePath : String) : List ChangeEvent :=
  sortDescOn ChangeEvent.createdTime
    ((s.listSecretPaths basePath).flatMap (changeEventsOf s basePath))

/-- Total recorded changes of a directory per the spec: the length of
its merged change stream. -/
def totalChanges (s : Store) (basePath : String) : Nat :=
  (changeStream s basePath).length

/-- The current version of a key per the spec: the version of the newest
retained version, or `0` for a key with no retained history. -/
def currentVersionOf (s : Store) (basePath relPath : String) : Nat :=
  match getVersionHistory s (basePath ++ "/" ++ relPath) with
  | [] => 0
  | h :: _ => h.version

/-- Walk a list of events against a single pointer per the spec: for an
event on this key whose version equals the pointer, decrement the
pointer by one; otherwise leave it unchanged. -/
def pointerAfter (events : List ChangeEvent) (relPath : String) (p : Nat) : Nat :=
  events.foldl
    (fun ptr e => if e.secretPath = relPath ∧ ptr = e.version then ptr - 1 else ptr)
    p

/-- A key pointer after undoing the first `n` events of the merged
stream, starting from the current version, per the spec. -/
def pointerAt (s : Store) (basePath : String) (n : Nat) (relPath : String) : Nat :=
  pointerAfter ((changeStream s basePath).take n) relPath
    (currentVersionOf s basePath relPath)

/-- The directory state `n` changes ago per the spec pointer walk: for
each key whose pointer is at least one, read exactly version
`pointer[k]` and include its flattened fields; keys whose pointer
reached zero are omitted. -/
def stateAtChangesAgoSpec (s : Store) (basePath : String) (n : Nat) : GoMap :=
  (s.listSecretPaths basePath).foldl
    (fun r relPath =>
      let p := pointerAt s basePath n relPath
      if p ≥ 1 then readMerge s basePath r (relPath, p) else r)
    []

/-- The live current state of a directory per the spec: each key read at
its current version, flattened and merged. -/
def liveStateOf (s : Store) (basePath : String) : GoMap :=
  (s.listSecretPaths basePath).foldl
    (fun r relPath =>
      let cv := currentVersionOf s basePath relPath
      if cv ≥ 1 then readMerge s basePath r (relPath, cv) else r)
    []

/-- Versioned reads of one key succeed and flatten to a nonempty map. -/
def readNonempty (s : Store) (fullPath : String) (v : Nat) : Bool :=
  match s.readSecretVersion fullPath v with
  | none => false
  | some d => !(flattenAndExtractValues d true).isEmpty

/-- Sanity conditions on a store under which the reconstruction claims
are stated: the key listing has no duplicates, and every key can be read
at every version from one up to its current version, yielding data with
at least one flattened field. -/
def StoreOK (s : Store) (basePath : String) : Prop :=
  (s.listSecretPaths basePath).Nodup ∧
  ∀ relPath ∈ s.listSecretPaths basePath,
    ∀ v ∈ List.range' 1 (currentVersionOf s basePath relPath),
      readNonempty s (basePath ++ "/" ++ relPath) v = true

/-! ## SnapshotReconciler: the snapshot module -/

/-- Embedding of `SnapshotSecret`. -/
structure SnapshotSecret where
  value : GoVal
  version : Nat
  updated : Nat
deriving Inhabited

/-- Embedding of `Snapshot`. -/
structure Snapshot where
  path : String
  createdAt : Nat
  secrets : List (String × SnapshotSecret)

/-- Embedding of `RestoreOptions`. -/
structure RestoreOptions where
  dryRun : Bool := false
  verify : Bool := false
  deleteExtra : Bool := false
deriving DecidableEq

/-- Embedding of `RestoreResult`. -/
structure RestoreResult where
  added : List String := []
  updated : List String := []
  deleted : List String := []
  unchanged : List String := []
  skipped : List String := []
deriving DecidableEq, Inhabited

/-- Embedding of `RestoreResult.HasChanges`. -/
def RestoreResult.hasChanges (r : RestoreResult) : Bool :=
  r.added.length > 0 || r.updated.length > 0 || r.deleted.length > 0

/-- One live secret of the target directory: its raw data and its
current metadata version. -/
structure LiveSecret where
  data : GoMap
  version : Nat
deriving Inhabited

/-- The live target directory, keyed by relative path (the restore
functions always address the store below the fixed target path, so the
target-path argument of the Go function reduces to this view). -/
structure LiveDir where
  entries : List (String × LiveSecret)

/-- Lookup of one live secret (`ReadSecretRaw` and `GetMetadata`). -/
def LiveDir.lookup (d : LiveDir) (k : String) : Option LiveSecret :=
  lookupAL d.entries k

/-- Embedding of `WriteSecret` against the live directory: overwriting a
key bumps its version by one, writing a new key creates version one. -/
def LiveDir.write (d : LiveDir) (k : String) (data : GoMap) : LiveDir :=
  match lookupAL d.entries k with
  | some _ =>
    ⟨d.entries.map (fun e => if e.1 = k then (k, ⟨data, e.2.version + 1⟩) else e)⟩
  | none => ⟨d.entries ++ [(k, ⟨data, 1⟩)]⟩

/-- Embedding of `DeleteSecret` against the live directory. -/
def LiveDir.erase (d : LiveDir) (k : String) : LiveDir :=
  ⟨d.entries.filter (fun e => e.1 ≠ k)⟩

/-- Unwrapping of a value for comparison in `RestoreSnapshot`: a map
holding exactly one `value` entry stands for that entry. -/
def unwrapValue : GoVal → GoVal
  | .vmap m =>
    (match lookupAL m "value" with
     | some v => if m.length = 1 then v else .vmap m
     | none => .vmap m)
  | v => v

/-- Wrapping of a snapshot value for writing: map values are written as
is, any other value is wrapped as a one-entry `value` map. -/
def wrapData : GoVal → GoMap
  | .vmap m => m
  | v => [("value", v)]

/-- The verify guard of the restore loop: skip a key that exists live
when its recorded version differs from the snapshot version. -/
def skipVerify (opts : RestoreOptions) (live : LiveDir) (relPath : String)
    (snapSec : SnapshotSecret) (exs : Bool) : Bool :=
  opts.verify && exs &&
    (match live.lookup relPath with
     | some sec => sec.version != snapSec.version
     | none => false)

/-- The classification switch of the restore loop: an existing key with
a render-equal value is unchanged (no write), an existing key with a
different or unreadable value is updated, a missing key is added; the
boolean reports whether the snapshot value must be written. -/
def classify (live : LiveDir) (exs : Bool) (relPath : String)
    (snapSec : SnapshotSecret) (res : RestoreResult) : RestoreResult × Bool :=
  if exs then
    match live.lookup relPath with
    | some sec =>
      if (unwrapValue (.vmap sec.data)).render = (unwrapValue snapSec.value).render then
        ({ res with unchanged := res.unchanged ++ [relPath] }, false)
      else ({ res with updated := res.updated ++ [relPath] }, true)
    | none => ({ res with updated := res.updated ++ [relPath] }, true)
  else ({ res with added := res.added ++ [relPath] }, true)

/-- The per-snapshot-entry loop of `RestoreSnapshot`: classify each
snapshot key against the live directory (skipped under `verify` on a
version mismatch, unchanged on render-equal values, otherwise updated or
added), write the snapshot value for added and updated keys unless
`dryRun`, and drop each processed key from the set of live keys. -/
def restoreLoop (opts : RestoreOptions) :
    List (String × SnapshotSecret) → RestoreResult → LiveDir → List String →
    RestoreResult × LiveDir × List String
  | [], res, live, cs => (res, live, cs)
  | (relPath, snapSec) :: rest, res, live, cs =>
    let exs := cs.contains relPath
    let cs' := cs.filter (fun p => p ≠ relPath)
    if skipVerify opts live relPath snapSec exs then
      restoreLoop opts rest { res with skipped := res.skipped ++ [relPath] } live cs'
    else
      let classed := classify live exs relPath snapSec res
      let live' :=
        if classed.2 && !opts.dryRun then live.write relPath (wrapData snapSec.value)
        else live
      restoreLoop opts rest classed.1 live' cs'

/-- The delete-extra phase of `RestoreSnapshot`: every live key not in
the snapshot is classified deleted and, outside `dryRun`, removed. -/
def deletePhase (opts : RestoreOptions) (res : RestoreResult) (live : LiveDir)
    (cs : List String) : RestoreResult × LiveDir :=
  if opts.deleteExtra then
    cs.foldl
      (fun acc relPath =>
        ({ acc.1 with deleted := acc.1.deleted ++ [relPath] },
         if opts.dryRun then acc.2 else acc.2.erase relPath))
      (res, live)
  else (res, live)

/-- Embedding of `RestoreSnapshot`: run the per-entry loop over the
snapshot against the live directory, then the delete-extra phase over
the remaining live keys; returns the result classification and the
directory after the applied side effects. -/
def restoreSnapshot (snap : Snapshot) (opts : RestoreOptions) (live : LiveDir) :
    RestoreResult × LiveDir :=
  let lr := restoreLoop opts snap.secrets {} live (keysOf live.entries)
  deletePhase opts lr.1 lr.2.1 lr.2.2


/-- The current-version entry one key contributes to the scan of
`GetStateAtChangesAgo` (none for a key with no retained history). -/
def currentEntry (s : Store) (basePath relPath : String) : Option (String × Nat) :=
  match getVersionHistory s (basePath ++ "/" ++ relPath) with
  | [] => none
  | h :: _ => some (relPath, h.version)

/-- Post-state of one snapshot key after a restore: either its value now
renders equal to the snapshot value, or it was skipped by verification
because its recorded version differs from the snapshot version. -/
def restoredOK (opts : RestoreOptions) (sec : LiveSecret) (ss : SnapshotSecret) :
    Prop :=
  (unwrapValue (.vmap sec.data)).render = (unwrapValue ss.value).render ∨
    (opts.verify = true ∧ sec.version ≠ ss.version)

/-! ## Concrete instances used by witnesses and counterexamples -/

/-- A directory with one key at version one: one creation, no recorded
change. -/
def oneVersionStore : Store where
  listSecretPaths := fun _ => ["k"]
  rawVersions := fun p => if p = "d/k" then [⟨1, 5, false, false⟩] else []
  readSecretVersion := fun _ _ => some [("value", .str "a")]

/-- A directory with keys `k1` (versions 1, 2) and `k2` (versions 1, 2,
3): three recorded changes in total. -/
def twoKeyStore : Store where
  listSecretPaths := fun _ => ["k1", "k2"]
  rawVersions := fun p =>
    if p = "d/k1" then [⟨1, 1, false, false⟩, ⟨2, 3, false, false⟩]
    else if p = "d/k2" then
      [⟨1, 2, false, false⟩, ⟨2, 4, false, false⟩, ⟨3, 6, false, false⟩]
    else []
  readSecretVersion := fun p v => some [("value", .str (p ++ "#" ++ toString v))]

/-- Snapshot of the restore scenario of the spec: `a` mapsto `1`, `b`
mapsto `2`. -/
def snapshotAB : Snapshot where
  path := "secret/app"
  createdAt := 0
  secrets := [("a", ⟨.str "1", 1, 0⟩), ("b", ⟨.str "2", 1, 0⟩)]

/-- Live directory of the restore scenario of the spec: `a` mapsto `1`,
`c` mapsto `3`. -/
def liveAC : LiveDir where
  entries :=
    [("a", ⟨[("value", .str "1")], 1⟩), ("c", ⟨[("value", .str "3")], 1⟩)]

/-- Snapshot capturing key `a` at version 2 (for the verify claim). -/
def snapshotVerify : Snapshot where
  path := "secret/app"
  createdAt := 0
  secrets := [("a", ⟨.str "old", 2, 0⟩)]

/-- Live directory where key `a` advanced to version 3 after capture. -/
def liveVerify : LiveDir where
  entries := [("a", ⟨[("value", .str "new")], 3⟩)]

/-! ## Generic lemmas on the association-list and sorting primitives -/

theorem keysOf_nil {α : Type} : keysOf ([] : List (String × α)) = [] := rfl

theorem keysOf_cons {α : Type} (q : String × α) (rest : List (String × α)) :
    keysOf (q :: rest) = q.1 :: keysOf rest := rfl

theorem keysOf_append {α : Type} (l1 l2 : List (String × α)) :
    keysOf (l1 ++ l2) = keysOf l1 ++ keysOf l2 := by
  simp [keysOf]

theorem mem_keysOf {α : Type} {m : List (String × α)} {k : String} :
    k ∈ keysOf m ↔ ∃ v, (k, v) ∈ m := by
  induction m with
  | nil => simp [keysOf]
  | cons q rest ih =>
    obtain ⟨k', v'⟩ := q
    constructor
    · intro h
      rcases List.mem_cons.mp h with h | h
      · exact ⟨v', by simp [h]⟩
      · obtain ⟨v, hv⟩ := ih.mp h
        exact ⟨v, List.mem_cons_of_mem _ hv⟩
    · rintro ⟨v, hv⟩
      rcases List.mem_cons.mp hv with h | h
      · rw [keysOf_cons]
        exact List.mem_cons.mpr (Or.inl (congrArg Prod.fst h.symm).symm)
      · exact List.mem_cons_of_mem _ (ih.mpr ⟨v, h⟩)

theorem lookupAL_eq_none {α : Type} (m : List (String × α)) (k : String) :
    lookupAL m k = none ↔ ∀ p ∈ m, p.1 ≠ k := by
  induction m with
  | nil => simp [lookupAL]
  | cons q rest ih =>
    obtain ⟨k', v⟩ := q
    by_cases h : k' = k
    · subst h
      simp [lookupAL]
    · simp [lookupAL, h, ih]

theorem lookupAL_isSome_iff {α : Type} (m : List (String × α)) (k : String) :
    (lookupAL m k).isSome = true ↔ k ∈ keysOf m := by
  induction m with
  | nil => simp [lookupAL, keysOf]
  | cons q rest ih =>
    obtain ⟨k', v⟩ := q
    by_cases h : k' = k
    · subst h
      simp [lookupAL, keysOf_cons]
    · rw [keysOf_cons]
      simp only [lookupAL, if_neg h]
      rw [ih]
      constructor
      · exact fun hm => List.mem_cons_of_mem _ hm
      · intro hm
        rcases List.mem_cons.mp hm with hm | hm
        · exact absurd hm.symm h
        · exact hm

theorem keysOf_insertAL_of_mem {α : Type} (m : List (String × α)) (k : String)
    (v : α) (h : k ∈ keysOf m) : keysOf (insertAL m k v) = keysOf m := by
  induction m with
  | nil => simp [keysOf] at h
  | cons q rest ih =>
    obtain ⟨k', v'⟩ := q
    by_cases hk : k' = k
    · subst hk
      simp [insertAL, keysOf]
    · rw [keysOf_cons] at h
      rcases List.mem_cons.mp h with h | h
      · exact absurd h.symm hk
      · simp only [insertAL, if_neg hk]
        rw [keysOf_cons, keysOf_cons, ih h]

theorem map_update_of_not_mem {α : Type} (m : List (String × α)) (k : String)
    (v : α) (h : k ∉ keysOf m) :
    m.map (fun p => if p.1 = k then (k, v) else p) = m := by
  induction m with
  | nil => rfl
  | cons q rest ih =>
    rw [keysOf_cons] at h
    have h1 : q.1 ≠ k := fun hq => h (List.mem_cons.mpr (Or.inl hq.symm))
    have h2 : k ∉ keysOf rest := fun hr => h (List.mem_cons_of_mem _ hr)
    simp [h1, ih h2]

theorem insertAL_eq_map_update {α : Type} (m : List (String × α)) (k : String)
    (v : α) (hnd : (keysOf m).Nodup) (hmem : k ∈ keysOf m) :
    insertAL m k v = m.map (fun p => if p.1 = k then (k, v) else p) := by
  induction m with
  | nil => simp [keysOf] at hmem
  | cons q rest ih =>
    obtain ⟨k', v'⟩ := q
    rw [keysOf_cons] at hnd hmem
    have hnd1 : k' ∉ keysOf rest := (List.nodup_cons.mp hnd).1
    have hnd2 : (keysOf rest).Nodup := (List.nodup_cons.mp hnd).2
    by_cases hk : k' = k
    · subst hk
      simp only [insertAL, List.map_cons, if_pos rfl]
      simp [map_update_of_not_mem rest k' v hnd1]
    · rcases List.mem_cons.mp hmem with h | h
      · exact absurd h.symm hk
      · simp only [insertAL, if_neg hk, List.map_cons]
        rw [ih hnd2 h]

theorem lookupAL_val_unique {α : Type} (m : List (String × α)) (k : String)
    (v : α) (hnd : (keysOf m).Nodup) (hl : lookupAL m k = some v) :
    ∀ p ∈ m, p.1 = k → p.2 = v := by
  induction m with
  | nil => simp
  | cons q rest ih =>
    obtain ⟨k', v'⟩ := q
    rw [keysOf_cons] at hnd
    have hnd1 : k' ∉ keysOf rest := (List.nodup_cons.mp hnd).1
    have hnd2 : (keysOf rest).Nodup := (List.nodup_cons.mp hnd).2
    intro p hp hpk
    by_cases hk : k' = k
    · subst hk
      simp [lookupAL] at hl
      rcases List.mem_cons.mp hp with hp | hp
      · rw [hp]
        simpa using hl
      · have hpm : (p.1, p.2) ∈ rest := by simpa using hp
        rw [hpk] at hpm
        exact absurd (mem_keysOf.mpr ⟨p.2, hpm⟩) hnd1
    · simp only [lookupAL, if_neg hk] at hl
      rcases List.mem_cons.mp hp with hp | hp
      · exact absurd (by rw [hp] at hpk; exact hpk) hk
      · exact ih hnd2 hl p hp hpk

theorem insertAL_ne_nil {α : Type} (m : List (String × α)) (k : String) (v : α) :
    insertAL m k v ≠ [] := by
  cases m with
  | nil => simp [insertAL]
  | cons q rest =>
    obtain ⟨k', v'⟩ := q
    by_cases h : k' = k <;> simp [insertAL, h]

theorem insertSortedOn_perm {α : Type} (key : α → String) (p : α) (l : List α) :
    (insertSortedOn key p l).Perm (p :: l) := by
  induction l with
  | nil => simp [insertSortedOn]
  | cons q rest ih =>
    by_cases h : key p < key q
    · simp [insertSortedOn, h]
    · simp only [insertSortedOn, if_neg h]
      exact (ih.cons q).trans (List.Perm.swap p q rest)

theorem sortOn_perm {α : Type} (key : α → String) (l : List α) :
    (sortOn key l).Perm l := by
  induction l with
  | nil => simp [sortOn]
  | cons q rest ih =>
    exact (insertSortedOn_perm key q (sortOn key rest)).trans (ih.cons q)

theorem sortOn_length {α : Type} (key : α → String) (l : List α) :
    (sortOn key l).length = l.length :=
  (sortOn_perm key l).length_eq

theorem sortOn_mem {α : Type} (key : α → String) (l : List α) (x : α) :
    x ∈ sortOn key l ↔ x ∈ l :=
  (sortOn_perm key l).mem_iff

theorem insertSortedDescOn_perm {α : Type} (key : α → Nat) (p : α) (l : List α) :
    (insertSortedDescOn key p l).Perm (p :: l) := by
  induction l with
  | nil => simp [insertSortedDescOn]
  | cons q rest ih =>
    by_cases h : key p > key q
    · simp [insertSortedDescOn, h]
    · simp only [insertSortedDescOn, if_neg h]
      exact (ih.cons q).trans (List.Perm.swap p q rest)

theorem sortDescOn_perm {α : Type} (key : α → Nat) (l : List α) :
    (sortDescOn key l).Perm l := by
  induction l with
  | nil => simp [sortDescOn]
  | cons q rest ih =>
    exact (insertSortedDescOn_perm key q (sortDescOn key rest)).trans (ih.cons q)

theorem sortDescOn_length {α : Type} (key : α → Nat) (l : List α) :
    (sortDescOn key l).length = l.length :=
  (sortDescOn_perm key l).length_eq

theorem sortDescOn_mem {α : Type} (key : α → Nat) (l : List α) (x : α) :
    x ∈ sortDescOn key l ↔ x ∈ l :=
  (sortDescOn_perm key l).mem_iff

theorem insertSortedDescOn_sorted {α : Type} (key : α → Nat) (p : α) (l : List α)
    (h : l.Pairwise (fun a b => key b ≤ key a)) :
    (insertSortedDescOn key p l).Pairwise (fun a b => key b ≤ key a) := by
  induction l with
  | nil => simp [insertSortedDescOn]
  | cons q rest ih =>
    rcases List.pairwise_cons.mp h with ⟨hq, hrest⟩
    by_cases hgt : key p > key q
    · simp only [insertSortedDescOn, if_pos hgt]
      refine List.pairwise_cons.mpr ⟨?_, h⟩
      intro x hx
      rcases List.mem_cons.mp hx with rfl | hx
      · omega
      · have := hq x hx
        omega
    · simp only [insertSortedDescOn, if_neg hgt]
      refine List.pairwise_cons.mpr ⟨?_, ih hrest⟩
      intro x hx
      have hx' := (insertSortedDescOn_perm key p rest).mem_iff.mp hx
      rcases List.mem_cons.mp hx' with rfl | hx'
      · omega
      · exact hq x hx'

theorem sortDescOn_sorted {α : Type} (key : α → Nat) (l : List α) :
    (sortDescOn key l).Pairwise (fun a b => key b ≤ key a) := by
  induction l with
  | nil => simp [sortDescOn]
  | cons q rest ih => exact insertSortedDescOn_sorted key q _ ih

theorem sortDescOn_head_max {α : Type} (key : α → Nat) (l : List α) (h : α)
    (t : List α) (heq : sortDescOn key l = h :: t) :
    ∀ x ∈ l, key x ≤ key h := by
  intro x hx
  have hmem : x ∈ h :: t := heq ▸ (sortDescOn_mem key l x).mpr hx
  have hs := sortDescOn_sorted key l
  rw [heq] at hs
  rcases List.mem_cons.mp hmem with rfl | hmem
  · omega
  · exact (List.pairwise_cons.mp hs).1 x hmem

/-! ## Lemmas on the changes-ago machinery -/

theorem foldl_mergeStep_ne_nil (rp : String) (l : GoMap) :
    ∀ r : GoMap, r ≠ [] →
      l.foldl
        (fun acc kv =>
          if kv.1 = "" then insertAL acc rp kv.2
          else insertAL acc (rp ++ "." ++ kv.1) kv.2)
        r ≠ [] := by
  induction l with
  | nil => intro r h; simpa
  | cons x xs ih =>
    intro r _
    simp only [List.foldl_cons]
    apply ih
    by_cases hx : x.1 = "" <;> simp [hx, insertAL_ne_nil]

theorem mergeFlattened_ne_nil_left (r : GoMap) (rp : String) (sec : GoMap)
    (h : r ≠ []) : mergeFlattened r rp sec ≠ [] := by
  unfold mergeFlattened
  exact foldl_mergeStep_ne_nil rp _ r h

theorem mergeFlattened_ne_nil (r : GoMap) (rp : String) (sec : GoMap)
    (h : flattenAndExtractValues sec true ≠ []) : mergeFlattened r rp sec ≠ [] := by
  unfold mergeFlattened
  cases hl : flattenAndExtractValues sec true with
  | nil => exact absurd hl h
  | cons x xs =>
    simp only [List.foldl_cons]
    apply foldl_mergeStep_ne_nil
    by_cases hx : x.1 = "" <;> simp [hx, insertAL_ne_nil]

theorem scan_fst (s : Store) (b : String) (paths : List String) :
    ∀ acc : List ChangeEvent × List (String × Nat),
      (paths.foldl (scanStep s b) acc).1 = acc.1 ++ paths.flatMap (changeEventsOf s b) := by
  induction paths with
  | nil => intro acc; simp
  | cons rp rest ih =>
    intro acc
    simp only [List.foldl_cons, List.flatMap_cons]
    cases hh : getVersionHistory s (b ++ "/" ++ rp) with
    | nil =>
      rw [show scanStep s b acc rp = acc by simp [scanStep, hh]]
      rw [show changeEventsOf s b rp = [] by simp [changeEventsOf, hh]]
      simpa using ih acc
    | cons h t =>
      rw [show scanStep s b acc rp =
        (acc.1 ++ changeEventsOf s b rp, acc.2 ++ [(rp, h.version)]) by
          simp [scanStep, hh, changeEventsOf]]
      rw [ih]
      simp

theorem scan_snd (s : Store) (b : String) (paths : List String) :
    ∀ acc : List ChangeEvent × List (String × Nat),
      (paths.foldl (scanStep s b) acc).2 = acc.2 ++ paths.filterMap (currentEntry s b) := by
  induction paths with
  | nil => intro acc; simp
  | cons rp rest ih =>
    intro acc
    simp only [List.foldl_cons, List.filterMap_cons]
    cases hh : getVersionHistory s (b ++ "/" ++ rp) with
    | nil =>
      rw [show scanStep s b acc rp = acc by simp [scanStep, hh]]
      rw [show currentEntry s b rp = none by simp [currentEntry, hh]]
      exact ih acc
    | cons h t =>
      rw [show scanStep s b acc rp =
        (acc.1 ++ changeEventsOf s b rp, acc.2 ++ [(rp, h.version)]) by
          simp [scanStep, hh, changeEventsOf]]
      rw [show currentEntry s b rp = some (rp, h.version) by simp [currentEntry, hh]]
      rw [ih]
      simp

theorem keysOf_currentEntry_sublist (s : Store) (b : String) (paths : List String) :
    (keysOf (paths.filterMap (currentEntry s b))).Sublist paths := by
  induction paths with
  | nil => simp [keysOf]
  | cons rp rest ih =>
    simp only [List.filterMap_cons]
    cases hh : getVersionHistory s (b ++ "/" ++ rp) with
    | nil =>
      rw [show currentEntry s b rp = none by simp [currentEntry, hh]]
      exact ih.cons rp
    | cons h t =>
      rw [show currentEntry s b rp = some (rp, h.version) by simp [currentEntry, hh]]
      rw [keysOf_cons]
      exact ih.cons₂ rp

theorem undoStep_keys (m : List (String × Nat)) (e : ChangeEvent) :
    keysOf (undoStep m e) = keysOf m := by
  unfold undoStep
  cases hl : lookupAL m e.secretPath with
  | none => rfl
  | some cur =>
    by_cases hc : cur = e.version
    · simp only [if_pos hc]
      exact keysOf_insertAL_of_mem m e.secretPath _
        ((lookupAL_isSome_iff m e.secretPath).mp (by simp [hl]))
    · simp [hc]

theorem undoStep_map (m : List (String × Nat)) (e : ChangeEvent)
    (hnd : (keysOf m).Nodup) :
    undoStep m e =
      m.map (fun kv =>
        (kv.1, if e.secretPath = kv.1 ∧ kv.2 = e.version then kv.2 - 1 else kv.2)) := by
  unfold undoStep
  cases hl : lookupAL m e.secretPath with
  | none =>
    have hall := (lookupAL_eq_none m e.secretPath).mp hl
    have hcong : ∀ p ∈ m,
        (p.1, if e.secretPath = p.1 ∧ p.2 = e.version then p.2 - 1 else p.2) = p := by
      intro p hp
      have hne : ¬ e.secretPath = p.1 := fun h => (hall p hp) h.symm
      simp [hne]
    rw [List.map_congr_left hcong]
    simp
  | some cur =>
    have hmem : e.secretPath ∈ keysOf m :=
      (lookupAL_isSome_iff m e.secretPath).mp (by simp [hl])
    by_cases hc : cur = e.version
    · simp only [if_pos hc]
      rw [insertAL_eq_map_update m e.secretPath (e.version - 1) hnd hmem]
      refine List.map_congr_left ?_
      intro p hp
      by_cases hpk : p.1 = e.secretPath
      · have hval : p.2 = cur := lookupAL_val_unique m e.secretPath cur hnd hl p hp hpk
        simp [hpk, hval, hc]
      · have hne : ¬ e.secretPath = p.1 := fun h => hpk h.symm
        simp [hpk, hne]
    · simp only [if_neg hc]
      have hcong : ∀ p ∈ m,
          (p.1, if e.secretPath = p.1 ∧ p.2 = e.version then p.2 - 1 else p.2) = p := by
        intro p hp
        by_cases hpk : p.1 = e.secretPath
        · have hval : p.2 ≠ e.version := by
            rw [lookupAL_val_unique m e.secretPath cur hnd hl p hp hpk]
            exact hc
          simp [hval]
        · have hne : ¬ e.secretPath = p.1 := fun h => hpk h.symm
          simp [hne]
      rw [List.map_congr_left hcong]
      simp

theorem pointerAfter_nil (k : String) (p : Nat) : pointerAfter [] k p = p := rfl

theorem pointerAfter_cons (e : ChangeEvent) (evs : List ChangeEvent) (k : String)
    (p : Nat) :
    pointerAfter (e :: evs) k p =
      pointerAfter evs k (if e.secretPath = k ∧ p = e.version then p - 1 else p) := rfl

theorem walk_map (evs : List ChangeEvent) :
    ∀ m : List (String × Nat), (keysOf m).Nodup →
      evs.foldl undoStep m = m.map (fun kv => (kv.1, pointerAfter evs kv.1 kv.2)) := by
  induction evs with
  | nil =>
    intro m _
    simp only [List.foldl_nil, pointerAfter_nil]
    exact (List.map_id m).symm ▸ (List.map_congr_left (fun p _ => rfl)).symm
  | cons e evs ih =>
    intro m hnd
    simp only [List.foldl_cons]
    rw [ih (undoStep m e) (by rw [undoStep_keys]; exact hnd)]
    rw [undoStep_map m e hnd, List.map_map]
    refine List.map_congr_left ?_
    intro p _
    simp [Function.comp, pointerAfter_cons]

theorem pointerAfter_le (evs : List ChangeEvent) (k : String) :
    ∀ p, pointerAfter evs k p ≤ p := by
  induction evs with
  | nil => intro p; simp [pointerAfter_nil]
  | cons e evs ih =>
    intro p
    rw [pointerAfter_cons]
    by_cases hc : e.secretPath = k ∧ p = e.version
    · calc pointerAfter evs k (if e.secretPath = k ∧ p = e.version then p - 1 else p)
          ≤ (if e.secretPath = k ∧ p = e.version then p - 1 else p) := ih _
        _ ≤ p := by by_cases hc : e.secretPath = k ∧ p = e.version <;> simp [hc]
    · calc pointerAfter evs k (if e.secretPath = k ∧ p = e.version then p - 1 else p)
          ≤ (if e.secretPath = k ∧ p = e.version then p - 1 else p) := ih _
        _ ≤ p := by by_cases hc : e.secretPath = k ∧ p = e.version <;> simp [hc]

theorem pointerAfter_pos (evs : List ChangeEvent) (k : String)
    (hv : ∀ e ∈ evs, 1 < e.version) :
    ∀ p, 1 ≤ p → 1 ≤ pointerAfter evs k p := by
  induction evs with
  | nil => intro p hp; simpa [pointerAfter_nil]
  | cons e evs ih =>
    intro p hp
    rw [pointerAfter_cons]
    have hv' : ∀ e' ∈ evs, 1 < e'.version := fun e' he' => hv e' (List.mem_cons_of_mem _ he')
    by_cases hc : e.secretPath = k ∧ p = e.version
    · have h2 : 1 < e.version := hv e (List.mem_cons_self e evs)
      rw [if_pos hc]
      exact ih hv' _ (by omega)
    · rw [if_neg hc]
      exact ih hv' p hp

theorem pointerAfter_zero (evs : List ChangeEvent) (k : String)
    (hv : ∀ e ∈ evs, 1 < e.version) : pointerAfter evs k 0 = 0 := by
  induction evs with
  | nil => rfl
  | cons e evs ih =>
    rw [pointerAfter_cons]
    have h2 : 1 < e.version := hv e (List.mem_cons_self e evs)
    rw [if_neg (fun hc => by omega)]
    exact ih (fun e' he' => hv e' (List.mem_cons_of_mem _ he'))

theorem mem_changeEventsOf {s : Store} {b rp : String} {e : ChangeEvent}
    (he : e ∈ changeEventsOf s b rp) :
    e.secretPath = rp ∧ 1 < e.version ∧
      ∃ v ∈ getVersionHistory s (b ++ "/" ++ rp),
        v.version = e.version ∧ v.createdTime = e.createdTime := by
  unfold changeEventsOf at he
  rcases List.mem_map.mp he with ⟨v, hv, hve⟩
  rcases List.mem_filter.mp hv with ⟨hvh, hvp⟩
  refine ⟨by rw [← hve], ?_, v, hvh, by rw [← hve], by rw [← hve]⟩
  rw [← hve]
  simpa using hvp

theorem mem_changeStream {s : Store} {b : String} {e : ChangeEvent}
    (he : e ∈ changeStream s b) :
    e.secretPath ∈ s.listSecretPaths b ∧ 1 < e.version ∧
      e.version ≤ currentVersionOf s b e.secretPath := by
  unfold changeStream at he
  have he' := (sortDescOn_mem _ _ _).mp he
  rcases List.mem_flatMap.mp he' with ⟨rp, hrp, hev⟩
  obtain ⟨hpath, hver, v, hvh, hvv, _⟩ := mem_changeEventsOf hev
  subst hpath
  refine ⟨hrp, hver, ?_⟩
  unfold currentVersionOf
  cases hh : getVersionHistory s (b ++ "/" ++ e.secretPath) with
  | nil => rw [hh] at hvh; simp at hvh
  | cons h t =>
    rw [hh] at hvh
    unfold getVersionHistory at hh
    have hle := sortDescOn_head_max VersionInfo.version _ h t hh v
      ((sortDescOn_mem _ _ _).mp (hh ▸ hvh))
    show e.version ≤ h.version
    omega

theorem take_changeStream_version {s : Store} {b : String} {n : Nat} :
    ∀ e ∈ (changeStream s b).take n, 1 < e.version := fun e he =>
  (mem_changeStream (List.take_subset n _ he)).2.1

theorem foldl_readMergeStep (s : Store) (b : String) (l : List (String × Nat)) :
    ∀ init, l.foldl (readMergeStep s b) init =
      (l.filter (fun kv => decide (1 ≤ kv.2))).foldl (readMerge s b) init := by
  induction l with
  | nil => intro init; rfl
  | cons kv rest ih =>
    intro init
    by_cases hc : kv.2 < 1
    · have : readMergeStep s b init kv = init := by simp [readMergeStep, hc]
      simp only [List.foldl_cons, this, List.filter_cons]
      rw [if_neg (by simpa using hc)]
      exact ih init
    · have : readMergeStep s b init kv = readMerge s b init kv := by
        simp [readMergeStep, hc]
      simp only [List.foldl_cons, this, List.filter_cons]
      rw [if_pos (by simp; omega)]
      simp only [List.foldl_cons]
      exact ih _

theorem spec_as_filter (s : Store) (b : String) (n : Nat) :
    stateAtChangesAgoSpec s b n =
      (((s.listSecretPaths b).map (fun rp => (rp, pointerAt s b n rp))).filter
          (fun kv => decide (1 ≤ kv.2))).foldl (readMerge s b) [] := by
  unfold stateAtChangesAgoSpec
  generalize s.listSecretPaths b = paths
  suffices h : ∀ init : GoMap, paths.foldl
      (fun r relPath =>
        let p := pointerAt s b n relPath
        if p ≥ 1 then readMerge s b r (relPath, p) else r) init =
      ((paths.map (fun rp => (rp, pointerAt s b n rp))).filter
          (fun kv => decide (1 ≤ kv.2))).foldl (readMerge s b) init from h []
  induction paths with
  | nil => intro init; rfl
  | cons rp rest ih =>
    intro init
    simp only [List.foldl_cons, List.map_cons, List.filter_cons]
    by_cases hc : 1 ≤ pointerAt s b n rp
    · rw [if_pos (show pointerAt s b n rp ≥ 1 from hc), if_pos (by simp [hc])]
      simp only [List.foldl_cons]
      exact ih _
    · rw [if_neg (show ¬ pointerAt s b n rp ≥ 1 from hc), if_neg (by simp [hc])]
      exact ih init

theorem final_filter_eq (s : Store) (b : String) (n : Nat) :
    (((s.listSecretPaths b).filterMap (currentEntry s b)).map
        (fun kv => (kv.1, pointerAfter ((changeStream s b).take n) kv.1 kv.2))).filter
      (fun kv => decide (1 ≤ kv.2)) =
    ((s.listSecretPaths b).map (fun rp => (rp, pointerAt s b n rp))).filter
      (fun kv => decide (1 ≤ kv.2)) := by
  generalize s.listSecretPaths b = paths
  induction paths with
  | nil => rfl
  | cons rp rest ih =>
    cases hh : getVersionHistory s (b ++ "/" ++ rp) with
    | nil =>
      have hce : currentEntry s b rp = none := by simp [currentEntry, hh]
      have hcv : currentVersionOf s b rp = 0 := by simp [currentVersionOf, hh]
      have hp0 : pointerAt s b n rp = 0 := by
        unfold pointerAt
        rw [hcv]
        exact pointerAfter_zero _ _ take_changeStream_version
      simp only [List.filterMap_cons, hce, List.map_cons, List.filter_cons, hp0]
      rw [if_neg (by simp)]
      exact ih
    | cons h t =>
      have hce : currentEntry s b rp = some (rp, h.version) := by
        simp [currentEntry, hh]
      have hcv : currentVersionOf s b rp = h.version := by
        simp [currentVersionOf, hh]
      have hpt : pointerAt s b n rp =
          pointerAfter ((changeStream s b).take n) rp h.version := by
        unfold pointerAt
        rw [hcv]
      simp only [List.filterMap_cons, hce, List.map_cons, List.filter_cons, hpt]
      by_cases hc : 1 ≤ pointerAfter ((changeStream s b).take n) rp h.version
      · rw [if_pos (by simp [hc]), if_pos (by simp [hc]), ih]
      · rw [if_neg (by simp [hc]), if_neg (by simp [hc])]
        exact ih

theorem foldl_pred_preserved {α β : Type} (f : β → α → β) (P : β → Prop) :
    ∀ (l : List α) (r : β), (∀ acc x, x ∈ l → P acc → P (f acc x)) → P r →
      P (l.foldl f r) := by
  intro l
  induction l with
  | nil => intro r _ hr; simpa
  | cons x xs ih =>
    intro r hpres hr
    simp only [List.foldl_cons]
    exact ih _ (fun acc y hy => hpres acc y (List.mem_cons_of_mem _ hy))
      (hpres r x (List.mem_cons_self x xs) hr)

theorem foldl_pred_of_mem {α β : Type} (f : β → α → β) (P : β → Prop) :
    ∀ (l : List α) (x : α), x ∈ l → (∀ acc y, y ∈ l → P acc → P (f acc y)) →
      (∀ acc, P (f acc x)) → ∀ r, P (l.foldl f r) := by
  intro l
  induction l with
  | nil => intro x hx; simp at hx
  | cons y ys ih =>
    intro x hx hpres hx' r
    rcases List.mem_cons.mp hx with rfl | hx
    · simp only [List.foldl_cons]
      exact foldl_pred_preserved f P ys _
        (fun acc z hz => hpres acc z (List.mem_cons_of_mem _ hz)) (hx' r)
    · simp only [List.foldl_cons]
      exact ih x hx (fun acc z hz => hpres acc z (List.mem_cons_of_mem _ hz)) hx' _

theorem spec_ne_nil (s : Store) (b : String) (n : Nat) (hOK : StoreOK s b)
    (htot : 1 ≤ totalChanges s b) : stateAtChangesAgoSpec s b n ≠ [] := by
  obtain ⟨hnd, hread⟩ := hOK
  have hne : changeStream s b ≠ [] := by
    intro h
    rw [totalChanges, h] at htot
    simp at htot
  obtain ⟨e, he⟩ : ∃ e, e ∈ changeStream s b := by
    cases hcs : changeStream s b with
    | nil => exact absurd hcs hne
    | cons x xs => exact ⟨x, hcs ▸ List.mem_cons_self x xs⟩
  obtain ⟨hpath, hver, hcur⟩ := mem_changeStream he
  have hcv1 : 1 ≤ currentVersionOf s b e.secretPath := by omega
  have hp1 : 1 ≤ pointerAt s b n e.secretPath :=
    pointerAfter_pos _ _ take_changeStream_version _ hcv1
  have hple : pointerAt s b n e.secretPath ≤ currentVersionOf s b e.secretPath :=
    pointerAfter_le _ _ _
  have hreadOK : readNonempty s (b ++ "/" ++ e.secretPath)
      (pointerAt s b n e.secretPath) = true := by
    apply hread e.secretPath hpath
    rw [List.mem_range'_1]
    omega
  unfold readNonempty at hreadOK
  cases hr : s.readSecretVersion (b ++ "/" ++ e.secretPath)
      (pointerAt s b n e.secretPath) with
  | none => rw [hr] at hreadOK; simp at hreadOK
  | some d =>
    rw [hr] at hreadOK
    have hfl : flattenAndExtractValues d true ≠ [] := by
      intro hfl
      simp [hfl] at hreadOK
    unfold stateAtChangesAgoSpec
    apply foldl_pred_of_mem _ (fun r : GoMap => r ≠ []) _ e.secretPath hpath
    · intro acc y hy hacc
      dsimp only
      by_cases hc : pointerAt s b n y ≥ 1
      · rw [if_pos hc]
        unfold readMerge
        cases hry : s.readSecretVersion (b ++ "/" ++ y) (pointerAt s b n y) with
        | none => simpa using hacc
        | some dy => exact mergeFlattened_ne_nil_left _ _ _ hacc
      · rw [if_neg hc]
        exact hacc
    · intro acc
      dsimp only
      rw [if_pos (show pointerAt s b n e.secretPath ≥ 1 from hp1)]
      unfold readMerge
      rw [hr]
      exact mergeFlattened_ne_nil _ _ _ hfl

theorem getState_eq_spec (s : Store) (b : String) (n : Nat) (hOK : StoreOK s b)
    (htot : 1 ≤ totalChanges s b) (hn : n ≤ totalChanges s b) :
    getStateAtChangesAgo s b n = .ok (stateAtChangesAgoSpec s b n) := by
  have hflat : ((s.listSecretPaths b).flatMap (changeEventsOf s b)).length =
      totalChanges s b := by
    rw [totalChanges, changeStream, sortDescOn_length]
  have hpaths : ¬ (s.listSecretPaths b).length = 0 := by
    intro h
    rw [List.length_eq_zero] at h
    rw [h] at hflat
    simp at hflat
    omega
  have hs1 : ((s.listSecretPaths b).foldl (scanStep s b) ([], [])).1 =
      (s.listSecretPaths b).flatMap (changeEventsOf s b) := by
    simpa using scan_fst s b (s.listSecretPaths b) ([], [])
  have hs2 : ((s.listSecretPaths b).foldl (scanStep s b) ([], [])).2 =
      (s.listSecretPaths b).filterMap (currentEntry s b) := by
    simpa using scan_snd s b (s.listSecretPaths b) ([], [])
  have hstream : sortDescOn ChangeEvent.createdTime
      ((s.listSecretPaths b).flatMap (changeEventsOf s b)) = changeStream s b := rfl
  have hndkeys : (keysOf ((s.listSecretPaths b).filterMap (currentEntry s b))).Nodup :=
    (hOK.1).sublist (keysOf_currentEntry_sublist s b (s.listSecretPaths b))
  unfold getStateAtChangesAgo
  rw [if_neg hpaths]
  simp only [hs1, hs2]
  rw [if_neg (show ¬ ((s.listSecretPaths b).flatMap (changeEventsOf s b)).length = 0 by
    rw [hflat]; omega)]
  rw [hstream]
  rw [if_neg (show ¬ n > (changeStream s b).length by
    rw [show (changeStream s b).length = totalChanges s b from rfl]; omega)]
  rw [walk_map _ _ hndkeys]
  rw [foldl_readMergeStep, final_filter_eq, ← spec_as_filter]
  rw [if_neg (by
    intro hlen
    exact spec_ne_nil s b n ⟨hOK.1, hOK.2⟩ htot (List.length_eq_zero.mp hlen))]

theorem getState_depth_error (s : Store) (b : String) (n : Nat)
    (htot : 1 ≤ totalChanges s b) (hgt : totalChanges s b < n) :
    getStateAtChangesAgo s b n = .error (.invalidDepth (totalChanges s b) b n) := by
  have hflat : ((s.listSecretPaths b).flatMap (changeEventsOf s b)).length =
      totalChanges s b := by
    rw [totalChanges, changeStream, sortDescOn_length]
  have hpaths : ¬ (s.listSecretPaths b).length = 0 := by
    intro h
    rw [List.length_eq_zero] at h
    rw [h] at hflat
    simp at hflat
    omega
  have hs1 : ((s.listSecretPaths b).foldl (scanStep s b) ([], [])).1 =
      (s.listSecretPaths b).flatMap (changeEventsOf s b) := by
    simpa using scan_fst s b (s.listSecretPaths b) ([], [])
  have hstream : sortDescOn ChangeEvent.createdTime
      ((s.listSecretPaths b).flatMap (changeEventsOf s b)) = changeStream s b := rfl
  unfold getStateAtChangesAgo
  rw [if_neg hpaths]
  simp only [hs1]
  rw [if_neg (show ¬ ((s.listSecretPaths b).flatMap (changeEventsOf s b)).length = 0 by
    rw [hflat]; omega)]
  rw [hstream]
  rw [if_pos (show n > (changeStream s b).length by
    rw [show (changeStream s b).length = totalChanges s b from rfl]; omega)]
  rfl

theorem spec_zero (s : Store) (b : String) :
    stateAtChangesAgoSpec s b 0 = liveStateOf s b := by
  unfold stateAtChangesAgoSpec liveStateOf pointerAt
  simp only [List.take_zero, pointerAfter_nil]

theorem timeline_fold (s : Store) (p : String) (paths : List String) :
    ∀ acc, paths.foldl (timelineStep s p) acc =
      acc ++ paths.flatMap (fun sp => (getVersionHistory s (p ++ "/" ++ sp)).map
        (fun v => ⟨v.createdTime, sp, p ++ "/" ++ sp, v.version, v.version == 1⟩)) := by
  induction paths with
  | nil => intro acc; simp
  | cons sp rest ih =>
    intro acc
    simp only [List.foldl_cons, List.flatMap_cons]
    rw [show timelineStep s p acc sp = acc ++ (getVersionHistory s (p ++ "/" ++ sp)).map
      (fun v => ⟨v.createdTime, sp, p ++ "/" ++ sp, v.version, v.version == 1⟩) from rfl]
    rw [ih]
    simp

/-- C1: for a directory and `1 ≤ N ≤` the total recorded changes,
`GetStateAtChangesAgo` returns exactly the map computed by the pointer
walk of the specification: pointers start at each key current version,
the first `N` merged events in time-descending order decrement the
pointer of their key exactly when it equals the event version, and the
result reads each key with pointer at least one at that version,
omitting keys whose pointer reached zero. -/
theorem claim_changes_ago_pointer_walk (s : Store) (b : String) (n : Nat)
    (hOK : StoreOK s b) (h1 : 1 ≤ n) (h2 : n ≤ totalChanges s b) :
    getStateAtChangesAgo s b n = .ok (stateAtChangesAgoSpec s b n) :=
  getState_eq_spec s b n hOK (le_trans h1 h2) h2

theorem claim_changes_ago_pointer_walk_witness :
    StoreOK twoKeyStore "d" ∧ 1 ≤ 2 ∧ 2 ≤ totalChanges twoKeyStore "d" ∧
    getStateAtChangesAgo twoKeyStore "d" 2 =
      .ok (stateAtChangesAgoSpec twoKeyStore "d" 2) :=
  ⟨by unfold StoreOK; decide, by decide, by decide,
    claim_changes_ago_pointer_walk twoKeyStore "d" 2
      (by unfold StoreOK; decide) (by decide) (by decide)⟩

/-- C3 (amended): for a directory that has at least one recorded change,
`GetStateAtChangesAgo` fails with the invalid-depth error exactly when
`N` exceeds the total recorded change count, and succeeds whenever
`N` is at most that total; a directory with no recorded changes fails
with the no-changes error instead (see the counterexample). -/
theorem claim_invalid_depth_boundary (s : Store) (b : String) (n : Nat)
    (hOK : StoreOK s b) (htot : 1 ≤ totalChanges s b) :
    (isInvalidDepth (getStateAtChangesAgo s b n) = true ↔ totalChanges s b < n) ∧
    (n ≤ totalChanges s b → ∃ m, getStateAtChangesAgo s b n = .ok m) := by
  constructor
  · constructor
    · intro h
      by_contra hlt
      push_neg at hlt
      rw [getState_eq_spec s b n hOK htot hlt] at h
      simp [isInvalidDepth] at h
    · intro h
      rw [getState_depth_error s b n htot h]
      rfl
  · intro h
    exact ⟨stateAtChangesAgoSpec s b n, getState_eq_spec s b n hOK htot h⟩

theorem claim_invalid_depth_boundary_witness :
    isInvalidDepth (getStateAtChangesAgo twoKeyStore "d" 4) = true ∧
    (∃ m, getStateAtChangesAgo twoKeyStore "d" 3 = .ok m) :=
  ⟨(claim_invalid_depth_boundary twoKeyStore "d" 4
      (by unfold StoreOK; decide) (by decide)).1.mpr (by decide),
   (claim_invalid_depth_boundary twoKeyStore "d" 3
      (by unfold StoreOK; decide) (by decide)).2 (by decide)⟩

/-- C3 counterexample: in a directory whose keys are all at version one
(zero recorded changes), a depth `N = 1` exceeds the total, yet the
failure is the no-changes error, not the invalid-depth error the claim
requires. -/
theorem claim_invalid_depth_counterexample :
    totalChanges oneVersionStore "d" = 0 ∧
    getStateAtChangesAgo oneVersionStore "d" 1 = .error (.noChangesFound "d") ∧
    isInvalidDepth (getStateAtChangesAgo oneVersionStore "d" 1) = false :=
  ⟨by decide, rfl, rfl⟩

/-- C4 (amended): for every directory with at least one recorded change,
`GetStateAtChangesAgo` at depth zero returns the live current state:
every key read at its current version, with no error. -/
theorem claim_changes_ago_zero_live (s : Store) (b : String)
    (hOK : StoreOK s b) (htot : 1 ≤ totalChanges s b) :
    getStateAtChangesAgo s b 0 = .ok (liveStateOf s b) := by
  rw [getState_eq_spec s b 0 hOK htot (Nat.zero_le _), spec_zero]

theorem claim_changes_ago_zero_live_witness :
    StoreOK twoKeyStore "d" ∧ 1 ≤ totalChanges twoKeyStore "d" ∧
    getStateAtChangesAgo twoKeyStore "d" 0 = .ok (liveStateOf twoKeyStore "d") :=
  ⟨by unfold StoreOK; decide, by decide,
    claim_changes_ago_zero_live twoKeyStore "d" (by unfold StoreOK; decide) (by decide)⟩

/-- C4 counterexample: a directory whose only key is at version one has a
well-defined live state, yet `GetStateAtChangesAgo(dir, 0)` fails with
the no-changes error instead of returning it. -/
theorem claim_changes_ago_zero_counterexample :
    getStateAtChangesAgo oneVersionStore "d" 0 = .error (.noChangesFound "d") ∧
    liveStateOf oneVersionStore "d" = [("k", .str "a")] :=
  ⟨rfl, rfl⟩

/-- C2 (amended): `GetTimeline` fails with the not-found error exactly
when the directory has no keys, and (for a nonempty directory) fails
with the no-history error exactly when every key has no retained version
at all; a directory whose keys all have exactly one retained version
yields a successful timeline (see the counterexample). -/
theorem claim_timeline_errors (s : Store) (p : String) :
    (getTimeline s p = .error (.noSecretsAt p) ↔ s.listSecretPaths p = []) ∧
    (s.listSecretPaths p ≠ [] →
      (getTimeline s p = .error (.noVersionHistory p) ↔
        ∀ k ∈ s.listSecretPaths p, getVersionHistory s (p ++ "/" ++ k) = [])) := by
  unfold getTimeline
  by_cases hp : (s.listSecretPaths p).length = 0
  · have hpe : s.listSecretPaths p = [] := List.length_eq_zero.mp hp
    rw [if_pos hp]
    exact ⟨iff_of_true rfl hpe, fun hne => absurd hpe hne⟩
  · have hpe : s.listSecretPaths p ≠ [] := fun h => hp (by rw [h]; rfl)
    rw [if_neg hp]
    have hfold : (s.listSecretPaths p).foldl (timelineStep s p) [] =
        (s.listSecretPaths p).flatMap (fun sp =>
          (getVersionHistory s (p ++ "/" ++ sp)).map
            (fun v => ⟨v.createdTime, sp, p ++ "/" ++ sp, v.version, v.version == 1⟩)) := by
      simpa using timeline_fold s p (s.listSecretPaths p) []
    simp only [hfold]
    have hiff : ((s.listSecretPaths p).flatMap (fun sp =>
        (getVersionHistory s (p ++ "/" ++ sp)).map
          (fun v => (⟨v.createdTime, sp, p ++ "/" ++ sp, v.version, v.version == 1⟩ :
            TimelineEntry))) = []) ↔
        ∀ k ∈ s.listSecretPaths p, getVersionHistory s (p ++ "/" ++ k) = [] := by
      rw [List.flatMap_eq_nil_iff]
      constructor
      · intro h k hk
        have := h k hk
        simpa using this
      · intro h k hk
        simp [h k hk]
    by_cases htl : ((s.listSecretPaths p).flatMap (fun sp =>
        (getVersionHistory s (p ++ "/" ++ sp)).map
          (fun v => (⟨v.createdTime, sp, p ++ "/" ++ sp, v.version, v.version == 1⟩ :
            TimelineEntry)))).length = 0
    · rw [if_pos htl]
      refine ⟨iff_of_false (by simp) (fun h => hpe h), fun _ => ?_⟩
      exact iff_of_true rfl (hiff.mp (List.length_eq_zero.mp htl))
    · rw [if_neg htl]
      refine ⟨iff_of_false (by simp) (fun h => hpe h), fun _ => ?_⟩
      refine iff_of_false (by simp) (fun hall => htl ?_)
      rw [hiff.mpr hall]
      rfl

theorem claim_timeline_errors_witness :
    (getTimeline twoKeyStore "d" = .error (.noSecretsAt "d") ↔
      twoKeyStore.listSecretPaths "d" = []) ∧
    (getTimeline twoKeyStore "d" = .error (.noVersionHistory "d") ↔
      ∀ k ∈ twoKeyStore.listSecretPaths "d",
        getVersionHistory twoKeyStore ("d" ++ "/" ++ k) = []) :=
  ⟨(claim_timeline_errors twoKeyStore "d").1,
   (claim_timeline_errors twoKeyStore "d").2 (by decide)⟩

/-- C2 counterexample: a nonempty directory in which every key has
exactly one retained version makes `GetTimeline` succeed with one entry
per key, while the claim requires a no-history failure. -/
theorem claim_timeline_counterexample :
    oneVersionStore.listSecretPaths "d" ≠ [] ∧
    (∀ k ∈ oneVersionStore.listSecretPaths "d",
      (getVersionHistory oneVersionStore ("d" ++ "/" ++ k)).length = 1) ∧
    getTimeline oneVersionStore "d" = .ok [⟨5, "k", "d/k", 1, true⟩] :=
  ⟨by decide, by decide, rfl⟩

/-! ## Lemmas on the restore machinery -/

theorem lookupAL_append {α : Type} (l1 l2 : List (String × α)) (k : String) :
    lookupAL (l1 ++ l2) k =
      match lookupAL l1 k with
      | some v => some v
      | none => lookupAL l2 k := by
  induction l1 with
  | nil => simp [lookupAL]
  | cons q rest ih =>
    obtain ⟨k', v⟩ := q
    by_cases h : k' = k <;> simp [lookupAL, h, ih]

theorem lookupAL_map_ite {α : Type} (m : List (String × α)) (k : String)
    (g : α → α) :
    lookupAL (m.map (fun e => if e.1 = k then (k, g e.2) else e)) k =
      (lookupAL m k).map g := by
  induction m with
  | nil => simp [lookupAL]
  | cons q rest ih =>
    obtain ⟨k', v⟩ := q
    simp only [List.map_cons]
    by_cases h : k' = k
    · subst h
      rw [if_pos (show ((k', v) : String × α).1 = k' from rfl)]
      simp [lookupAL, ih]
    · rw [if_neg (show ¬ ((k', v) : String × α).1 = k from h)]
      simp [lookupAL, h, ih]

theorem lookupAL_map_ite_ne {α : Type} (m : List (String × α)) (k k'' : String)
    (g : α → α) (h : k'' ≠ k) :
    lookupAL (m.map (fun e => if e.1 = k then (k, g e.2) else e)) k'' =
      lookupAL m k'' := by
  induction m with
  | nil => simp [lookupAL]
  | cons q rest ih =>
    obtain ⟨k', v⟩ := q
    simp only [List.map_cons]
    by_cases hq : k' = k
    · subst hq
      rw [if_pos (show ((k', v) : String × α).1 = k' from rfl)]
      simp [lookupAL, fun hh : k' = k'' => h hh.symm, Ne.symm h, ih]
    · rw [if_neg (show ¬ ((k', v) : String × α).1 = k from hq)]
      by_cases hq2 : k' = k''
      · simp [lookupAL, hq2]
      · simp [lookupAL, hq2, ih]

theorem write_lookup_self (d : LiveDir) (k : String) (data : GoMap) :
    ∃ ver, (d.write k data).lookup k = some ⟨data, ver⟩ := by
  unfold LiveDir.write LiveDir.lookup
  cases hl : lookupAL d.entries k with
  | none =>
    refine ⟨1, ?_⟩
    show lookupAL (d.entries ++ [(k, (⟨data, 1⟩ : LiveSecret))]) k = _
    rw [lookupAL_append, hl]
    simp [lookupAL]
  | some sec =>
    refine ⟨sec.version + 1, ?_⟩
    show lookupAL (d.entries.map (fun e =>
      if e.1 = k then (k, (⟨data, e.2.version + 1⟩ : LiveSecret)) else e)) k = _
    rw [show (fun (e : String × LiveSecret) =>
        if e.1 = k then (k, (⟨data, e.2.version + 1⟩ : LiveSecret)) else e) =
      (fun e => if e.1 = k then (k, (fun s : LiveSecret =>
        (⟨data, s.version + 1⟩ : LiveSecret)) e.2) else e) from rfl]
    rw [lookupAL_map_ite d.entries k
      (fun s : LiveSecret => (⟨data, s.version + 1⟩ : LiveSecret)), hl]
    rfl

theorem write_lookup_ne (d : LiveDir) (k : String) (data : GoMap) (k'' : String)
    (h : k'' ≠ k) : (d.write k data).lookup k'' = d.lookup k'' := by
  unfold LiveDir.write LiveDir.lookup
  cases hl : lookupAL d.entries k with
  | none =>
    show lookupAL (d.entries ++ [(k, (⟨data, 1⟩ : LiveSecret))]) k'' = _
    rw [lookupAL_append]
    cases hl2 : lookupAL d.entries k'' with
    | none => simp [lookupAL, Ne.symm h]
    | some sec => rfl
  | some sec =>
    show lookupAL (d.entries.map (fun e =>
      if e.1 = k then (k, (⟨data, e.2.version + 1⟩ : LiveSecret)) else e)) k'' = _
    rw [show (fun (e : String × LiveSecret) =>
        if e.1 = k then (k, (⟨data, e.2.version + 1⟩ : LiveSecret)) else e) =
      (fun e => if e.1 = k then (k, (fun s : LiveSecret =>
        (⟨data, s.version + 1⟩ : LiveSecret)) e.2) else e) from rfl]
    rw [lookupAL_map_ite_ne d.entries k k''
      (fun s : LiveSecret => (⟨data, s.version + 1⟩ : LiveSecret)) h]

theorem erase_lookup_ne (d : LiveDir) (k k'' : String) (h : k'' ≠ k) :
    (d.erase k).lookup k'' = d.lookup k'' := by
  unfold LiveDir.erase LiveDir.lookup
  show lookupAL (d.entries.filter (fun e => e.1 ≠ k)) k'' = lookupAL d.entries k''
  induction d.entries with
  | nil => rfl
  | cons q rest ih =>
    obtain ⟨k', v⟩ := q
    simp only [List.filter_cons]
    by_cases hq : k' = k
    · rw [if_neg (by simp [hq])]
      rw [ih]
      have : ¬ k' = k'' := fun hh => h (hq ▸ hh ▸ rfl)
      simp [lookupAL, this]
    · rw [if_pos (by simp [hq])]
      simp only [decide_not] at ih
      simp [lookupAL, ih]

theorem write_keys_mem (d : LiveDir) (k : String) (data : GoMap) (x : String)
    (hx : x ∈ keysOf (d.write k data).entries) :
    x ∈ keysOf d.entries ∨ x = k := by
  unfold LiveDir.write at hx
  cases hl : lookupAL d.entries k with
  | none =>
    rw [hl] at hx
    rw [keysOf_append] at hx
    rcases List.mem_append.mp hx with hx | hx
    · exact Or.inl hx
    · simp [keysOf] at hx
      exact Or.inr hx
  | some sec =>
    rw [hl] at hx
    unfold keysOf at hx
    rw [List.map_map] at hx
    rcases List.mem_map.mp hx with ⟨e, he, hex⟩
    by_cases hek : e.1 = k
    · simp [Function.comp, hek] at hex
      exact Or.inr hex.symm
    · simp [Function.comp, hek] at hex
      exact Or.inl (hex ▸ List.mem_map_of_mem Prod.fst he)

theorem erase_keys_mem (d : LiveDir) (k x : String) :
    x ∈ keysOf (d.erase k).entries ↔ x ∈ keysOf d.entries ∧ x ≠ k := by
  unfold LiveDir.erase
  constructor
  · intro hx
    rcases mem_keysOf.mp hx with ⟨v, hv⟩
    rcases List.mem_filter.mp hv with ⟨hmem, hne⟩
    exact ⟨mem_keysOf.mpr ⟨v, hmem⟩, by simpa using hne⟩
  · rintro ⟨hx, hne⟩
    rcases mem_keysOf.mp hx with ⟨v, hv⟩
    exact mem_keysOf.mpr ⟨v, List.mem_filter.mpr ⟨hv, by simpa using hne⟩⟩

theorem contains_eq_true_iff (l : List String) (a : String) :
    l.contains a = true ↔ a ∈ l := by
  induction l with
  | nil => simp
  | cons x xs ih => simp [List.contains_cons, ih]

theorem unwrap_wrap (v : GoVal) : unwrapValue (.vmap (wrapData v)) = unwrapValue v := by
  cases v with
  | str s => simp [wrapData, unwrapValue, lookupAL]
  | int n => simp [wrapData, unwrapValue, lookupAL]
  | vmap m => rfl

theorem classify_skipped (live : LiveDir) (exs : Bool) (rp : String)
    (ss : SnapshotSecret) (res : RestoreResult) :
    (classify live exs rp ss res).1.skipped = res.skipped := by
  unfold classify
  cases exs with
  | false => rfl
  | true =>
    cases h : live.lookup rp with
    | none => simp [h]
    | some sec =>
      by_cases hr : (unwrapValue (.vmap sec.data)).render = (unwrapValue ss.value).render <;>
        simp [h, hr]

theorem classify_deleted (live : LiveDir) (exs : Bool) (rp : String)
    (ss : SnapshotSecret) (res : RestoreResult) :
    (classify live exs rp ss res).1.deleted = res.deleted := by
  unfold classify
  cases exs with
  | false => rfl
  | true =>
    cases h : live.lookup rp with
    | none => simp [h]
    | some sec =>
      by_cases hr : (unwrapValue (.vmap sec.data)).render = (unwrapValue ss.value).render <;>
        simp [h, hr]

theorem filter_ne_contains (cs : List String) (k0 : String) (keys : List String) :
    (cs.filter (fun p => p ≠ k0)).filter (fun p => !keys.contains p) =
      cs.filter (fun p => !((k0 :: keys).contains p)) := by
  rw [List.filter_filter]
  apply List.filter_congr
  intro x _
  by_cases hxk : x = k0 <;> simp [hxk, List.contains_cons]

theorem loop_cs (opts : RestoreOptions) :
    ∀ (es : List (String × SnapshotSecret)) res live cs,
      (restoreLoop opts es res live cs).2.2 =
        cs.filter (fun p => !((es.map Prod.fst).contains p)) := by
  intro es
  induction es with
  | nil =>
    intro res live cs
    simp [restoreLoop, List.filter_eq_self]
  | cons p rest ih =>
    obtain ⟨k0, ss0⟩ := p
    intro res live cs
    simp only [restoreLoop]
    by_cases hskip : skipVerify opts live k0 ss0 (cs.contains k0) = true
    · rw [if_pos hskip, ih]
      simpa using filter_ne_contains cs k0 (rest.map Prod.fst)
    · rw [if_neg hskip, ih]
      simpa using filter_ne_contains cs k0 (rest.map Prod.fst)

theorem loop_lookup_preserve (opts : RestoreOptions) :
    ∀ (es : List (String × SnapshotSecret)) res live cs k, k ∉ es.map Prod.fst →
      ((restoreLoop opts es res live cs).2.1).lookup k = live.lookup k := by
  intro es
  induction es with
  | nil => intro res live cs k _; rfl
  | cons p rest ih =>
    obtain ⟨k0, ss0⟩ := p
    intro res live cs k hk
    simp only [List.map_cons, List.mem_cons, not_or] at hk
    simp only [restoreLoop]
    by_cases hskip : skipVerify opts live k0 ss0 (cs.contains k0) = true
    · rw [if_pos hskip]
      exact ih _ _ _ _ hk.2
    · rw [if_neg hskip]
      rw [ih _ _ _ _ hk.2]
      by_cases hw : ((classify live (cs.contains k0) k0 ss0 res).2 && !opts.dryRun) = true
      · rw [if_pos hw]
        exact write_lookup_ne live k0 _ k hk.1
      · rw [if_neg hw]

theorem loop_keys_subset (opts : RestoreOptions) :
    ∀ (es : List (String × SnapshotSecret)) res live cs x,
      x ∈ keysOf ((restoreLoop opts es res live cs).2.1).entries →
      x ∈ keysOf live.entries ∨ x ∈ es.map Prod.fst := by
  intro es
  induction es with
  | nil => intro res live cs x hx; exact Or.inl hx
  | cons p rest ih =>
    obtain ⟨k0, ss0⟩ := p
    intro res live cs x hx
    simp only [restoreLoop] at hx
    by_cases hskip : skipVerify opts live k0 ss0 (cs.contains k0) = true
    · rw [if_pos hskip] at hx
      rcases ih _ _ _ _ hx with h | h
      · exact Or.inl h
      · exact Or.inr (List.mem_cons_of_mem _ h)
    · rw [if_neg hskip] at hx
      by_cases hw : ((classify live (cs.contains k0) k0 ss0 res).2 && !opts.dryRun) = true
      · rw [if_pos hw] at hx
        rcases ih _ _ _ _ hx with h | h
        · rcases write_keys_mem live k0 _ x h with h2 | h2
          · exact Or.inl h2
          · exact Or.inr (by simp [h2])
        · exact Or.inr (List.mem_cons_of_mem _ h)
      · rw [if_neg hw] at hx
        rcases ih _ _ _ _ hx with h | h
        · exact Or.inl h
        · exact Or.inr (List.mem_cons_of_mem _ h)

theorem loop_deleted (opts : RestoreOptions) :
    ∀ (es : List (String × SnapshotSecret)) res live cs,
      (restoreLoop opts es res live cs).1.deleted = res.deleted := by
  intro es
  induction es with
  | nil => intro res live cs; rfl
  | cons p rest ih =>
    obtain ⟨k0, ss0⟩ := p
    intro res live cs
    simp only [restoreLoop]
    by_cases hskip : skipVerify opts live k0 ss0 (cs.contains k0) = true
    · rw [if_pos hskip, ih]
    · rw [if_neg hskip, ih, classify_deleted]

theorem loop_skipped_mono (opts : RestoreOptions) :
    ∀ (es : List (String × SnapshotSecret)) res live cs,
      ∃ t, (restoreLoop opts es res live cs).1.skipped = res.skipped ++ t := by
  intro es
  induction es with
  | nil => intro res live cs; exact ⟨[], by simp [restoreLoop]⟩
  | cons p rest ih =>
    obtain ⟨k0, ss0⟩ := p
    intro res live cs
    simp only [restoreLoop]
    by_cases hskip : skipVerify opts live k0 ss0 (cs.contains k0) = true
    · rw [if_pos hskip]
      obtain ⟨t, ht⟩ := ih { res with skipped := res.skipped ++ [k0] }
        live (cs.filter (fun p => p ≠ k0))
      exact ⟨[k0] ++ t, by rw [ht]; simp⟩
    · rw [if_neg hskip]
      obtain ⟨t, ht⟩ := ih (classify live (cs.contains k0) k0 ss0 res).1 _ _
      exact ⟨t, by rw [ht, classify_skipped]⟩

theorem loop_establish (opts : RestoreOptions) (hdry : opts.dryRun = false) :
    ∀ (es : List (String × SnapshotSecret)) res live cs, (es.map Prod.fst).Nodup →
      ∀ p ∈ es, ∃ sec, ((restoreLoop opts es res live cs).2.1).lookup p.1 = some sec ∧
        restoredOK opts sec p.2 := by
  intro es
  induction es with
  | nil => intro res live cs _ p hp; simp at hp
  | cons q rest ih =>
    obtain ⟨k0, ss0⟩ := q
    intro res live cs hnd p hp
    simp only [List.map_cons, List.nodup_cons] at hnd
    obtain ⟨hnd0, hnd1⟩ := hnd
    rcases List.mem_cons.mp hp with rfl | hp
    · simp only [restoreLoop]
      by_cases hskip : skipVerify opts live k0 ss0 (cs.contains k0) = true
      · rw [if_pos hskip]
        unfold skipVerify at hskip
        simp only [Bool.and_eq_true] at hskip
        obtain ⟨⟨hver, _⟩, hmatch⟩ := hskip
        cases hlk : live.lookup k0 with
        | none =>
          rw [hlk] at hmatch
          exact absurd hmatch (by simp)
        | some sec =>
          rw [hlk] at hmatch
          refine ⟨sec, ?_, Or.inr ⟨hver, bne_iff_ne.mp hmatch⟩⟩
          rw [loop_lookup_preserve opts rest _ live _ k0 hnd0]
          exact hlk
      · rw [if_neg hskip]
        by_cases hexs : cs.contains k0 = true
        · have hmem : k0 ∈ cs := (contains_eq_true_iff cs k0).mp hexs
          cases hlk : live.lookup k0 with
          | some sec =>
            by_cases hrender : (unwrapValue (.vmap sec.data)).render =
                (unwrapValue ss0.value).render
            · have hcl : classify live (cs.contains k0) k0 ss0 res =
                  ({ res with unchanged := res.unchanged ++ [k0] }, false) := by
                simp [classify, hexs, hlk, hrender, hmem]
              rw [hcl]
              rw [if_neg (show ¬ ((({ res with unchanged := res.unchanged ++ [k0] },
                false) : RestoreResult × Bool).2 && !opts.dryRun) = true by simp)]
              refine ⟨sec, ?_, Or.inl hrender⟩
              rw [loop_lookup_preserve opts rest _ live _ k0 hnd0]
              exact hlk
            · have hcl : classify live (cs.contains k0) k0 ss0 res =
                  ({ res with updated := res.updated ++ [k0] }, true) := by
                simp [classify, hexs, hlk, hrender, hmem]
              rw [hcl]
              rw [if_pos (show ((({ res with updated := res.updated ++ [k0] },
                true) : RestoreResult × Bool).2 && !opts.dryRun) = true by simp [hdry])]
              obtain ⟨ver, hvw⟩ := write_lookup_self live k0 (wrapData ss0.value)
              refine ⟨⟨wrapData ss0.value, ver⟩, ?_, Or.inl ?_⟩
              · rw [loop_lookup_preserve opts rest _ _ _ k0 hnd0]
                exact hvw
              · show (unwrapValue (.vmap (wrapData ss0.value))).render = _
                rw [unwrap_wrap]
          | none =>
            have hcl : classify live (cs.contains k0) k0 ss0 res =
                ({ res with updated := res.updated ++ [k0] }, true) := by
              simp [classify, hexs, hlk, hmem]
            rw [hcl]
            rw [if_pos (show ((({ res with updated := res.updated ++ [k0] },
              true) : RestoreResult × Bool).2 && !opts.dryRun) = true by simp [hdry])]
            obtain ⟨ver, hvw⟩ := write_lookup_self live k0 (wrapData ss0.value)
            refine ⟨⟨wrapData ss0.value, ver⟩, ?_, Or.inl ?_⟩
            · rw [loop_lookup_preserve opts rest _ _ _ k0 hnd0]
              exact hvw
            · show (unwrapValue (.vmap (wrapData ss0.value))).render = _
              rw [unwrap_wrap]
        · have hexs' : cs.contains k0 = false := by
            revert hexs
            cases cs.contains k0 <;> simp
          have hnm : k0 ∉ cs := fun hm =>
            hexs ((contains_eq_true_iff cs k0).mpr hm)
          have hcl : classify live (cs.contains k0) k0 ss0 res =
              ({ res with added := res.added ++ [k0] }, true) := by
            simp [classify, hexs', hnm]
          rw [hcl]
          rw [if_pos (show ((({ res with added := res.added ++ [k0] },
            true) : RestoreResult × Bool).2 && !opts.dryRun) = true by simp [hdry])]
          obtain ⟨ver, hvw⟩ := write_lookup_self live k0 (wrapData ss0.value)
          refine ⟨⟨wrapData ss0.value, ver⟩, ?_, Or.inl ?_⟩
          · rw [loop_lookup_preserve opts rest _ _ _ k0 hnd0]
            exact hvw
          · show (unwrapValue (.vmap (wrapData ss0.value))).render = _
            rw [unwrap_wrap]
    · simp only [restoreLoop]
      by_cases hskip : skipVerify opts live k0 ss0 (cs.contains k0) = true
      · rw [if_pos hskip]
        exact ih _ _ _ hnd1 p hp
      · rw [if_neg hskip]
        exact ih _ _ _ hnd1 p hp

theorem loop_no_changes (opts : RestoreOptions) :
    ∀ (es : List (String × SnapshotSecret)) res live cs, (es.map Prod.fst).Nodup →
      (∀ p ∈ es, p.1 ∈ cs ∧ ∃ sec, live.lookup p.1 = some sec ∧
        restoredOK opts sec p.2) →
      (restoreLoop opts es res live cs).2.1 = live ∧
      (restoreLoop opts es res live cs).1.added = res.added ∧
      (restoreLoop opts es res live cs).1.updated = res.updated := by
  intro es
  induction es with
  | nil => intro res live cs _ _; exact ⟨rfl, rfl, rfl⟩
  | cons q rest ih =>
    obtain ⟨k0, ss0⟩ := q
    intro res live cs hnd hinv
    simp only [List.map_cons, List.nodup_cons] at hnd
    obtain ⟨hnd0, hnd1⟩ := hnd
    obtain ⟨hcs0, sec, hlk, hok⟩ := hinv (k0, ss0) (List.mem_cons_self _ _)
    have hexs : cs.contains k0 = true := (contains_eq_true_iff cs k0).mpr hcs0
    have hinv' : ∀ p ∈ rest, p.1 ∈ cs.filter (fun x => x ≠ k0) ∧
        ∃ sec, live.lookup p.1 = some sec ∧ restoredOK opts sec p.2 := by
      intro p hp
      obtain ⟨hpc, hsec⟩ := hinv p (List.mem_cons_of_mem _ hp)
      refine ⟨List.mem_filter.mpr ⟨hpc, ?_⟩, hsec⟩
      have : p.1 ∈ rest.map Prod.fst := List.mem_map_of_mem Prod.fst hp
      simp
      intro hpk
      exact hnd0 (hpk ▸ this)
    simp only [restoreLoop]
    by_cases hskip : skipVerify opts live k0 ss0 (cs.contains k0) = true
    · rw [if_pos hskip]
      obtain ⟨h1, h2, h3⟩ := ih { res with skipped := res.skipped ++ [k0] } live
        (cs.filter (fun p => p ≠ k0)) hnd1 hinv'
      exact ⟨h1, h2, h3⟩
    · rw [if_neg hskip]
      rcases hok with hrender | ⟨hver, hvne⟩
      · have hcl : classify live (cs.contains k0) k0 ss0 res =
            ({ res with unchanged := res.unchanged ++ [k0] }, false) := by
          simp [classify, hexs, hlk, hrender, hcs0]
        rw [hcl]
        rw [if_neg (show ¬ ((({ res with unchanged := res.unchanged ++ [k0] },
          false) : RestoreResult × Bool).2 && !opts.dryRun) = true by simp)]
        obtain ⟨h1, h2, h3⟩ := ih { res with unchanged := res.unchanged ++ [k0] } live
          (cs.filter (fun p => p ≠ k0)) hnd1 hinv'
        exact ⟨h1, h2, h3⟩
      · exfalso
        apply hskip
        unfold skipVerify
        rw [show live.lookup k0 = some sec from hlk]
        simp [hver, hexs, bne_iff_ne.mpr hvne, hcs0]

theorem deletePhase_res (opts : RestoreOptions) (cs : List String) :
    ∀ res live,
      (deletePhase opts res live cs).1.skipped = res.skipped ∧
      (deletePhase opts res live cs).1.added = res.added ∧
      (deletePhase opts res live cs).1.updated = res.updated := by
  intro res live
  unfold deletePhase
  by_cases hde : opts.deleteExtra = true
  · rw [if_pos hde]
    induction cs generalizing res live with
    | nil => exact ⟨rfl, rfl, rfl⟩
    | cons c rest ih =>
      dsimp only [List.foldl_cons]
      exact ih _ _
  · rw [if_neg hde]
    exact ⟨rfl, rfl, rfl⟩

theorem deletePhase_nil (opts : RestoreOptions) (res : RestoreResult)
    (live : LiveDir) : deletePhase opts res live [] = (res, live) := by
  unfold deletePhase
  by_cases hde : opts.deleteExtra = true
  · rw [if_pos hde]
    rfl
  · rw [if_neg hde]

theorem deletePhase_lookup (opts : RestoreOptions) (k : String) :
    ∀ cs : List String, k ∉ cs → ∀ res live,
      (deletePhase opts res live cs).2.lookup k = live.lookup k := by
  intro cs
  induction cs with
  | nil =>
    intro _ res live
    unfold deletePhase
    by_cases hde : opts.deleteExtra = true
    · rw [if_pos hde]
      rfl
    · rw [if_neg hde]
  | cons c rest ih =>
    intro hk res live
    simp only [List.mem_cons, not_or] at hk
    unfold deletePhase
    by_cases hde : opts.deleteExtra = true
    · rw [if_pos hde]
      have hstep := ih hk.2 { res with deleted := res.deleted ++ [c] }
        (if opts.dryRun = true then live else live.erase c)
      unfold deletePhase at hstep
      rw [if_pos hde] at hstep
      dsimp only [List.foldl_cons]
      rw [hstep]
      by_cases hdr : opts.dryRun = true
      · rw [if_pos hdr]
      · rw [if_neg hdr]
        exact erase_lookup_ne live c k hk.1
    · rw [if_neg hde]

theorem deletePhase_cons (opts : RestoreOptions) (res : RestoreResult)
    (live : LiveDir) (c : String) (rest : List String)
    (hde : opts.deleteExtra = true) :
    deletePhase opts res live (c :: rest) =
      deletePhase opts { res with deleted := res.deleted ++ [c] }
        (if opts.dryRun = true then live else live.erase c) rest := by
  unfold deletePhase
  rw [if_pos hde, if_pos hde]
  rfl

theorem deletePhase_keys (opts : RestoreOptions)
    (hdr : opts.dryRun = false) (hde : opts.deleteExtra = true) :
    ∀ cs : List String, ∀ res live x,
      x ∈ keysOf (deletePhase opts res live cs).2.entries →
      x ∈ keysOf live.entries ∧ x ∉ cs := by
  intro cs
  induction cs with
  | nil =>
    intro res live x hx
    unfold deletePhase at hx
    rw [if_pos hde] at hx
    exact ⟨hx, by simp⟩
  | cons c rest ih =>
    intro res live x hx
    rw [deletePhase_cons opts res live c rest hde, hdr] at hx
    rw [if_neg (by simp)] at hx
    obtain ⟨h1, h2⟩ := ih _ _ x hx
    rw [erase_keys_mem] at h1
    exact ⟨h1.1, by simp [h1.2, h2]⟩

theorem loop_skip (opts : RestoreOptions) (hver : opts.verify = true) :
    ∀ (es : List (String × SnapshotSecret)) res live cs (k : String)
      (ss : SnapshotSecret) (sec : LiveSecret), (es.map Prod.fst).Nodup →
      (k, ss) ∈ es → k ∈ cs → live.lookup k = some sec →
      sec.version ≠ ss.version →
      k ∈ (restoreLoop opts es res live cs).1.skipped ∧
      ((restoreLoop opts es res live cs).2.1).lookup k = some sec := by
  intro es
  induction es with
  | nil => intro res live cs k ss sec _ hmem; simp at hmem
  | cons q rest ih =>
    obtain ⟨k0, ss0⟩ := q
    intro res live cs k ss sec hnd hmem hkc hlk hvne
    simp only [List.map_cons, List.nodup_cons] at hnd
    obtain ⟨hnd0, hnd1⟩ := hnd
    rcases List.mem_cons.mp hmem with heq | hmem
    · have hk : k = k0 := congrArg Prod.fst heq
      have hss : ss = ss0 := congrArg Prod.snd heq
      subst hk
      subst hss
      have hexs : cs.contains k = true := (contains_eq_true_iff cs k).mpr hkc
      have hskipV : skipVerify opts live k ss (cs.contains k) = true := by
        unfold skipVerify
        rw [show live.lookup k = some sec from hlk]
        simp [hver, hexs, bne_iff_ne.mpr hvne, hkc]
      simp only [restoreLoop]
      rw [if_pos hskipV]
      constructor
      · obtain ⟨t, ht⟩ := loop_skipped_mono opts rest
          { res with skipped := res.skipped ++ [k] } live
          (cs.filter (fun p => p ≠ k))
        rw [ht]
        simp
      · rw [loop_lookup_preserve opts rest _ _ _ k hnd0]
        exact hlk
    · have hkk0 : k ≠ k0 := by
        intro h
        exact hnd0 (h ▸ List.mem_map_of_mem Prod.fst hmem)
      have hkc' : k ∈ cs.filter (fun p => p ≠ k0) :=
        List.mem_filter.mpr ⟨hkc, by simp [hkk0]⟩
      simp only [restoreLoop]
      by_cases hskip : skipVerify opts live k0 ss0 (cs.contains k0) = true
      · rw [if_pos hskip]
        exact ih _ _ _ k ss sec hnd1 hmem hkc' hlk hvne
      · rw [if_neg hskip]
        by_cases hw : ((classify live (cs.contains k0) k0 ss0 res).2 &&
            !opts.dryRun) = true
        · rw [if_pos hw]
          refine ih _ _ _ k ss sec hnd1 hmem hkc' ?_ hvne
          rw [write_lookup_ne live k0 _ k hkk0]
          exact hlk
        · rw [if_neg hw]
          exact ih _ _ _ k ss sec hnd1 hmem hkc' hlk hvne

/-- C7: on the scenario snapshot `a` mapsto 1, `b` mapsto 2 against live
state `a` mapsto 1, `c` mapsto 3 with delete-extra enabled,
`RestoreSnapshot` plans added `b`, no updates, deleted `c` and unchanged
`a`. -/
theorem claim_restore_plan_scenario :
    (restoreSnapshot snapshotAB ⟨false, false, true⟩ liveAC).1 =
      ⟨["b"], [], ["c"], ["a"], []⟩ := rfl

/-- C5: restoring the same snapshot twice with delete-extra enabled and
dry-run disabled, with no writes in between, leaves an empty plan
(no additions, updates or deletions) on the second run. -/
theorem claim_restore_idempotent (snap : Snapshot) (live : LiveDir)
    (opts : RestoreOptions) (hde : opts.deleteExtra = true)
    (hdr : opts.dryRun = false)
    (hnd : (snap.secrets.map Prod.fst).Nodup) :
    ((restoreSnapshot snap opts (restoreSnapshot snap opts live).2).1).hasChanges =
      false := by
  have hcs : (restoreLoop opts snap.secrets {} live (keysOf live.entries)).2.2 =
      (keysOf live.entries).filter
        (fun p => !((snap.secrets.map Prod.fst).contains p)) :=
    loop_cs opts snap.secrets {} live (keysOf live.entries)
  have hlive1 : (restoreSnapshot snap opts live).2 =
      (deletePhase opts
        (restoreLoop opts snap.secrets {} live (keysOf live.entries)).1
        (restoreLoop opts snap.secrets {} live (keysOf live.entries)).2.1
        (restoreLoop opts snap.secrets {} live (keysOf live.entries)).2.2).2 := rfl
  have hnotin : ∀ p ∈ snap.secrets,
      p.1 ∉ (restoreLoop opts snap.secrets {} live (keysOf live.entries)).2.2 := by
    intro p hp hmem
    rw [hcs] at hmem
    rcases List.mem_filter.mp hmem with ⟨_, hnc⟩
    have hpk : p.1 ∈ snap.secrets.map Prod.fst := List.mem_map_of_mem Prod.fst hp
    rw [(contains_eq_true_iff _ _).mpr hpk] at hnc
    simp at hnc
  have hF : ∀ p ∈ snap.secrets, ∃ sec,
      ((restoreSnapshot snap opts live).2).lookup p.1 = some sec ∧
      restoredOK opts sec p.2 := by
    intro p hp
    obtain ⟨sec, hlk, hok⟩ := loop_establish opts hdr snap.secrets {} live
      (keysOf live.entries) hnd p hp
    refine ⟨sec, ?_, hok⟩
    rw [hlive1, deletePhase_lookup opts p.1 _ (hnotin p hp)]
    exact hlk
  have hsub : ∀ x ∈ keysOf ((restoreSnapshot snap opts live).2).entries,
      x ∈ snap.secrets.map Prod.fst := by
    intro x hx
    rw [hlive1] at hx
    obtain ⟨hx1, hx2⟩ := deletePhase_keys opts hdr hde _ _ _ x hx
    rcases loop_keys_subset opts snap.secrets _ _ _ x hx1 with h | h
    · by_contra hnk
      apply hx2
      rw [hcs]
      refine List.mem_filter.mpr ⟨h, ?_⟩
      simp only [Bool.not_eq_eq_eq_not, Bool.not_true]
      rw [show (snap.secrets.map Prod.fst).contains x = false by
        revert hnk
        cases hc : (snap.secrets.map Prod.fst).contains x
        · intro _; rfl
        · intro hnk; exact absurd ((contains_eq_true_iff _ _).mp hc) hnk]
    · exact h
  have hinv2 : ∀ p ∈ snap.secrets,
      p.1 ∈ keysOf ((restoreSnapshot snap opts live).2).entries ∧ ∃ sec,
      ((restoreSnapshot snap opts live).2).lookup p.1 = some sec ∧
      restoredOK opts sec p.2 := by
    intro p hp
    obtain ⟨sec, hlk, hok⟩ := hF p hp
    refine ⟨(lookupAL_isSome_iff _ _).mp ?_, sec, hlk, hok⟩
    rw [show lookupAL ((restoreSnapshot snap opts live).2).entries p.1 =
      some sec from hlk]
    rfl
  obtain ⟨hG1, hG2, hG3⟩ := loop_no_changes opts snap.secrets {}
    (restoreSnapshot snap opts live).2
    (keysOf ((restoreSnapshot snap opts live).2).entries) hnd hinv2
  have hcs2 : (restoreLoop opts snap.secrets {} (restoreSnapshot snap opts live).2
      (keysOf ((restoreSnapshot snap opts live).2).entries)).2.2 = [] := by
    rw [loop_cs]
    apply List.filter_eq_nil_iff.mpr
    intro x hx
    rw [(contains_eq_true_iff _ _).mpr (hsub x hx)]
    simp
  show (deletePhase opts
    (restoreLoop opts snap.secrets {} (restoreSnapshot snap opts live).2
      (keysOf ((restoreSnapshot snap opts live).2).entries)).1
    (restoreLoop opts snap.secrets {} (restoreSnapshot snap opts live).2
      (keysOf ((restoreSnapshot snap opts live).2).entries)).2.1
    (restoreLoop opts snap.secrets {} (restoreSnapshot snap opts live).2
      (keysOf ((restoreSnapshot snap opts live).2).entries)).2.2).1.hasChanges = false
  rw [hcs2, deletePhase_nil]
  unfold RestoreResult.hasChanges
  rw [hG2, hG3, loop_deleted]
  rfl

theorem claim_restore_idempotent_witness :
    ((restoreSnapshot snapshotAB ⟨false, false, true⟩
      (restoreSnapshot snapshotAB ⟨false, false, true⟩ liveAC).2).1).hasChanges =
      false :=
  claim_restore_idempotent snapshotAB liveAC ⟨false, false, true⟩ rfl rfl (by decide)

/-- C6: under verify, a snapshot key that exists live with a recorded
version different from the snapshot version is classified skipped and
its live entry is left exactly as it was. -/
theorem claim_restore_verify_skip (snap : Snapshot) (live : LiveDir)
    (opts : RestoreOptions) (k : String) (ss : SnapshotSecret) (sec : LiveSecret)
    (hver : opts.verify = true) (hnd : (snap.secrets.map Prod.fst).Nodup)
    (hmem : (k, ss) ∈ snap.secrets) (hlk : live.lookup k = some sec)
    (hvne : sec.version ≠ ss.version) :
    k ∈ (restoreSnapshot snap opts live).1.skipped ∧
    ((restoreSnapshot snap opts live).2).lookup k = some sec := by
  have hk : k ∈ keysOf live.entries := (lookupAL_isSome_iff _ _).mp
    (by rw [show lookupAL live.entries k = some sec from hlk]; rfl)
  obtain ⟨hsk, hlk2⟩ := loop_skip opts hver snap.secrets {} live
    (keysOf live.entries) k ss sec hnd hmem hk hlk hvne
  have hnotin : k ∉ (restoreLoop opts snap.secrets {} live (keysOf live.entries)).2.2 := by
    rw [loop_cs]
    intro hm
    rcases List.mem_filter.mp hm with ⟨_, hnc⟩
    rw [(contains_eq_true_iff _ _).mpr (List.mem_map_of_mem Prod.fst hmem)] at hnc
    simp at hnc
  constructor
  · show k ∈ (deletePhase opts _ _ _).1.skipped
    rw [(deletePhase_res opts _ _ _).1]
    exact hsk
  · show (deletePhase opts _ _ _).2.lookup k = some sec
    rw [deletePhase_lookup opts k _ hnotin]
    exact hlk2

theorem claim_restore_verify_skip_witness :
    "a" ∈ (restoreSnapshot snapshotVerify ⟨false, true, true⟩ liveVerify).1.skipped ∧
    ((restoreSnapshot snapshotVerify ⟨false, true, true⟩ liveVerify).2).lookup "a" =
      some ⟨[("value", .str "new")], 3⟩ :=
  claim_restore_verify_skip snapshotVerify liveVerify ⟨false, true, true⟩
    "a" ⟨.str "old", 2, 0⟩ ⟨[("value", .str "new")], 3⟩
    rfl (by decide) (by simp [snapshotVerify]) rfl (by decide)

/-! ## The version-path parser claims -/

theorem parse_eq_of_last (s : String) (i : Nat)
    (h : lastIndexOfChar '@' s.data = some i) :
    parseVersionedPath s =
      (if (⟨s.data.drop (i + 1)⟩ : String) = "prev" ∨
          (⟨s.data.drop (i + 1)⟩ : String) = "previous" then
        ((⟨s.data.take i⟩ : String), ({ isPrev := true } : VersionSpec))
      else
        match goAtoi ⟨s.data.drop (i + 1)⟩ with
        | some version =>
          if version < 0 then
            (⟨s.data.take i⟩, { changesAgo := -version, isChangesAgo := true })
          else if version > 0 then (⟨s.data.take i⟩, { version := version })
          else (s, {})
        | none => (s, {})) := by
  unfold parseVersionedPath
  rw [h]

theorem intLiteral_prev : intLiteral "prev" = none := by decide

theorem intLiteral_previous : intLiteral "previous" = none := by decide

/-- C8 (amended): `ParseVersionedPath` splits at the last at-sign; a
positive integer suffix within the signed 64-bit range yields the exact
version, a negative one within range yields the changes-ago count,
`prev` and `previous` yield the previous-version spec, and any other
suffix, including the literal `0` and integers outside the 64-bit range
rejected by `strconv.Atoi`, returns the whole original string with no
selector; a string without an at-sign is returned unchanged; the five
concrete resolutions of the spec hold. -/
theorem claim_parse_versioned_path :
    (∀ (s : String) (i : Nat), lastIndexOfChar '@' s.data = some i →
      (∀ n : Int, intLiteral ⟨s.data.drop (i + 1)⟩ = some n → 0 < n →
        n ≤ 2 ^ 63 - 1 →
        parseVersionedPath s = (⟨s.data.take i⟩, { version := n })) ∧
      (∀ n : Int, intLiteral ⟨s.data.drop (i + 1)⟩ = some n → n < 0 →
        -(2 ^ 63) ≤ n →
        parseVersionedPath s =
          (⟨s.data.take i⟩, { changesAgo := -n, isChangesAgo := true })) ∧
      ((⟨s.data.drop (i + 1)⟩ : String) = "prev" ∨
        (⟨s.data.drop (i + 1)⟩ : String) = "previous" →
        parseVersionedPath s = (⟨s.data.take i⟩, { isPrev := true })) ∧
      ((⟨s.data.drop (i + 1)⟩ : String) ≠ "prev" →
        (⟨s.data.drop (i + 1)⟩ : String) ≠ "previous" →
        (∀ n : Int, intLiteral ⟨s.data.drop (i + 1)⟩ = some n →
          n = 0 ∨ n < -(2 ^ 63) ∨ n > 2 ^ 63 - 1) →
        parseVersionedPath s = (s, {}))) ∧
    (∀ s : String, lastIndexOfChar '@' s.data = none →
      parseVersionedPath s = (s, {})) ∧
    parseVersionedPath "p@3" = ("p", { version := 3 }) ∧
    parseVersionedPath "p@prev" = ("p", { isPrev := true }) ∧
    parseVersionedPath "p@-2" = ("p", { changesAgo := 2, isChangesAgo := true }) ∧
    parseVersionedPath "p@0" = ("p@0", {}) ∧
    parseVersionedPath "user@example.com" = ("user@example.com", {}) := by
  refine ⟨?_, ?_, by decide, by decide, by decide, by decide, by decide⟩
  · intro s i hlast
    refine ⟨?_, ?_, ?_, ?_⟩
    · intro n hn hpos hrange
      rw [parse_eq_of_last s i hlast]
      rw [if_neg (by
        rintro (h | h) <;> rw [h] at hn
        · rw [intLiteral_prev] at hn
          exact absurd hn (by simp)
        · rw [intLiteral_previous] at hn
          exact absurd hn (by simp))]
      have hga : goAtoi ⟨s.data.drop (i + 1)⟩ = some n := by
        unfold goAtoi
        rw [hn]
        show (if -(2 ^ 63 : Int) ≤ n ∧ n ≤ 2 ^ 63 - 1 then some n else none) = some n
        rw [if_pos ⟨by omega, hrange⟩]
      rw [hga]
      show (if n < 0 then _ else if n > 0 then _ else _) = _
      rw [if_neg (by omega), if_pos (by omega)]
    · intro n hn hneg hrange
      rw [parse_eq_of_last s i hlast]
      rw [if_neg (by
        rintro (h | h) <;> rw [h] at hn
        · rw [intLiteral_prev] at hn
          exact absurd hn (by simp)
        · rw [intLiteral_previous] at hn
          exact absurd hn (by simp))]
      have hga : goAtoi ⟨s.data.drop (i + 1)⟩ = some n := by
        unfold goAtoi
        rw [hn]
        show (if -(2 ^ 63 : Int) ≤ n ∧ n ≤ 2 ^ 63 - 1 then some n else none) = some n
        rw [if_pos ⟨hrange, by omega⟩]
      rw [hga]
      show (if n < 0 then _ else if n > 0 then _ else _) = _
      rw [if_pos (by omega)]
    · intro hpa
      rw [parse_eq_of_last s i hlast]
      rw [if_pos hpa]
    · intro hp1 hp2 hall
      rw [parse_eq_of_last s i hlast]
      rw [if_neg (by
        rintro (h | h)
        · exact hp1 h
        · exact hp2 h)]
      cases hil : intLiteral ⟨s.data.drop (i + 1)⟩ with
      | none =>
        have hga : goAtoi ⟨s.data.drop (i + 1)⟩ = none := by
          unfold goAtoi
          rw [hil]
        rw [hga]
      | some nlit =>
        rcases hall nlit hil with rfl | hout | hout
        · have hga : goAtoi ⟨s.data.drop (i + 1)⟩ = some 0 := by
            unfold goAtoi
            rw [hil]
            show (if -(2 ^ 63 : Int) ≤ 0 ∧ (0 : Int) ≤ 2 ^ 63 - 1 then
              some (0 : Int) else none) = some 0
            rw [if_pos ⟨by omega, by omega⟩]
          rw [hga]
          show (if (0 : Int) < 0 then _ else if (0 : Int) > 0 then _ else _) = _
          rw [if_neg (by omega), if_neg (by omega)]
        · have hga : goAtoi ⟨s.data.drop (i + 1)⟩ = none := by
            unfold goAtoi
            rw [hil]
            show (if -(2 ^ 63 : Int) ≤ nlit ∧ nlit ≤ 2 ^ 63 - 1 then
              some nlit else none) = none
            rw [if_neg (by omega)]
          rw [hga]
        · have hga : goAtoi ⟨s.data.drop (i + 1)⟩ = none := by
            unfold goAtoi
            rw [hil]
            show (if -(2 ^ 63 : Int) ≤ nlit ∧ nlit ≤ 2 ^ 63 - 1 then
              some nlit else none) = none
            rw [if_neg (by omega)]
          rw [hga]
  · intro s hnone
    unfold parseVersionedPath
    rw [hnone]

theorem claim_parse_versioned_path_witness :
    parseVersionedPath "q@7" = ("q", { version := 7 }) ∧
    parseVersionedPath "q@-5" = ("q", { changesAgo := 5, isChangesAgo := true }) ∧
    parseVersionedPath "q@previous" = ("q", { isPrev := true }) ∧
    parseVersionedPath "q@x" = ("q@x", {}) ∧
    parseVersionedPath "noatsign" = ("noatsign", {}) := by
  refine ⟨?_, ?_, ?_, ?_, ?_⟩
  · rw [(claim_parse_versioned_path.1 "q@7" 1 (by decide)).1 7 (by decide)
      (by decide) (by decide)]
    decide
  · rw [(claim_parse_versioned_path.1 "q@-5" 1 (by decide)).2.1 (-5) (by decide)
      (by decide) (by decide)]
    decide
  · rw [(claim_parse_versioned_path.1 "q@previous" 1 (by decide)).2.2.1
      (Or.inr (by decide))]
    decide
  · exact (claim_parse_versioned_path.1 "q@x" 1 (by decide)).2.2.2 (by decide)
      (by decide) (fun n hn => by
        rw [show intLiteral ⟨List.drop (1 + 1) "q@x".data⟩ = none from by decide] at hn
        exact absurd hn (by simp))
  · exact claim_parse_versioned_path.2.1 "noatsign" (by decide)

/-- C8 counterexample: the suffix `9223372036854775808` is a positive
integer literal, yet `ParseVersionedPath` returns the whole string with
no selector, because `strconv.Atoi` rejects values beyond the signed
64-bit range; the claim as stated requires an exact-version selector. -/
theorem claim_parse_versioned_path_counterexample :
    intLiteral "9223372036854775808" = some (9223372036854775808 : Int) ∧
    (0 : Int) < 9223372036854775808 ∧
    lastIndexOfChar '@' ("p@9223372036854775808".data) = some 1 ∧
    parseVersionedPath "p@9223372036854775808" =
      ("p@9223372036854775808", {}) ∧
    ("p@9223372036854775808", ({} : VersionSpec)) ≠
      ("p", ({ version := 9223372036854775808 } : VersionSpec)) :=
  ⟨by decide, by decide, by decide, by decide, by decide⟩

/-! ## Lemmas on the two passes of compareSecrets -/

theorem lookupAL_isNone_iff {α : Type} (m : List (String × α)) (k : String) :
    (lookupAL m k).isNone = true ↔ k ∉ keysOf m := by
  rw [← lookupAL_isSome_iff]
  cases lookupAL m k <;> simp

theorem lookupAL_of_mem_nodup {α : Type} (m : List (String × α)) (k : String)
    (v : α) (hnd : (keysOf m).Nodup) (hmem : (k, v) ∈ m) :
    lookupAL m k = some v := by
  induction m with
  | nil => simp at hmem
  | cons q rest ih =>
    obtain ⟨k0, v0⟩ := q
    rw [keysOf_cons] at hnd
    rcases List.mem_cons.mp hmem with h | h
    · have hk : k0 = k := (congrArg Prod.fst h).symm
      have hv : v0 = v := (congrArg Prod.snd h).symm
      simp [lookupAL, hk, hv]
    · by_cases hk : k0 = k
      · subst hk
        exact absurd (mem_keysOf.mpr ⟨v, h⟩) (List.nodup_cons.mp hnd).1
      · simp only [lookupAL, if_neg hk]
        exact ih (List.nodup_cons.mp hnd).2 h

theorem comparePass1_none (B : GoMap) (acc : DiffResult) (kv : String × GoVal)
    (hl : lookupAL B kv.1 = none) :
    comparePass1 B acc kv =
      { acc with onlyInFirst := acc.onlyInFirst ++ [⟨kv.1, kv.2.render⟩] } := by
  unfold comparePass1
  rw [hl]

theorem comparePass1_some_ne (B : GoMap) (acc : DiffResult) (kv : String × GoVal)
    (val2 : GoVal) (hl : lookupAL B kv.1 = some val2)
    (hh : hashValue kv.2 ≠ hashValue val2) :
    comparePass1 B acc kv =
      { acc with changed := acc.changed ++
          [⟨kv.1, kv.2.render.length, val2.render.length, kv.2.render,
            val2.render⟩] } := by
  unfold comparePass1
  rw [hl]
  show (if hashValue kv.2 ≠ hashValue val2 then _ else _) = _
  rw [if_pos hh]

theorem comparePass1_some_eq (B : GoMap) (acc : DiffResult) (kv : String × GoVal)
    (val2 : GoVal) (hl : lookupAL B kv.1 = some val2)
    (hh : ¬hashValue kv.2 ≠ hashValue val2) :
    comparePass1 B acc kv = { acc with unchanged := acc.unchanged + 1 } := by
  unfold comparePass1
  rw [hl]
  show (if hashValue kv.2 ≠ hashValue val2 then _ else _) = _
  rw [if_neg hh]

theorem comparePass2_some (A : GoMap) (acc : DiffResult) (kv : String × GoVal)
    (v : GoVal) (hl : lookupAL A kv.1 = some v) :
    comparePass2 A acc kv = acc := by
  unfold comparePass2
  rw [hl]

theorem comparePass2_none (A : GoMap) (acc : DiffResult) (kv : String × GoVal)
    (hl : lookupAL A kv.1 = none) :
    comparePass2 A acc kv =
      { acc with onlyInSecond := acc.onlyInSecond ++ [⟨kv.1, kv.2.render⟩] } := by
  unfold comparePass2
  rw [hl]

theorem pass1_counts (B : GoMap) :
    ∀ (A : GoMap) (acc : DiffResult),
      ((A.foldl (comparePass1 B) acc).onlyInFirst.length +
        (A.foldl (comparePass1 B) acc).changed.length +
        (A.foldl (comparePass1 B) acc).unchanged =
        acc.onlyInFirst.length + acc.changed.length + acc.unchanged + A.length) ∧
      (A.foldl (comparePass1 B) acc).onlyInSecond = acc.onlyInSecond := by
  intro A
  induction A with
  | nil => intro acc; simp
  | cons kv rest ih =>
    intro acc
    rw [List.foldl_cons]
    have hstep : (comparePass1 B acc kv).onlyInFirst.length +
        (comparePass1 B acc kv).changed.length +
        (comparePass1 B acc kv).unchanged =
        acc.onlyInFirst.length + acc.changed.length + acc.unchanged + 1 ∧
        (comparePass1 B acc kv).onlyInSecond = acc.onlyInSecond := by
      cases hl : lookupAL B kv.1 with
      | none =>
        rw [comparePass1_none B acc kv hl]
        constructor
        · simp only [List.length_append, List.length_singleton]
          omega
        · rfl
      | some val2 =>
        by_cases hh : hashValue kv.2 ≠ hashValue val2
        · rw [comparePass1_some_ne B acc kv val2 hl hh]
          constructor
          · simp only [List.length_append, List.length_singleton]
            omega
          · rfl
        · rw [comparePass1_some_eq B acc kv val2 hl hh]
          constructor
          · show acc.onlyInFirst.length + acc.changed.length +
              (acc.unchanged + 1) =
              acc.onlyInFirst.length + acc.changed.length + acc.unchanged + 1
            omega
          · rfl
    obtain ⟨ih1, ih2⟩ := ih (comparePass1 B acc kv)
    constructor
    · rw [ih1, hstep.1, List.length_cons]
      omega
    · rw [ih2, hstep.2]

theorem pass2_fields (A : GoMap) :
    ∀ (B : GoMap) (acc : DiffResult),
      (B.foldl (comparePass2 A) acc).onlyInFirst = acc.onlyInFirst ∧
      (B.foldl (comparePass2 A) acc).changed = acc.changed ∧
      (B.foldl (comparePass2 A) acc).unchanged = acc.unchanged := by
  intro B
  induction B with
  | nil => intro acc; exact ⟨rfl, rfl, rfl⟩
  | cons kv rest ih =>
    intro acc
    rw [List.foldl_cons]
    obtain ⟨i1, i2, i3⟩ := ih (comparePass2 A acc kv)
    have hstep : (comparePass2 A acc kv).onlyInFirst = acc.onlyInFirst ∧
        (comparePass2 A acc kv).changed = acc.changed ∧
        (comparePass2 A acc kv).unchanged = acc.unchanged := by
      cases hl : lookupAL A kv.1 with
      | some v => rw [comparePass2_some A acc kv v hl]; exact ⟨rfl, rfl, rfl⟩
      | none => rw [comparePass2_none A acc kv hl]; exact ⟨rfl, rfl, rfl⟩
    exact ⟨i1.trans hstep.1, i2.trans hstep.2.1, i3.trans hstep.2.2⟩

theorem pass2_onlyInSecond (A : GoMap) :
    ∀ (B : GoMap) (acc : DiffResult),
      (B.foldl (comparePass2 A) acc).onlyInSecond =
        acc.onlyInSecond ++
          (B.filter (fun kv => (lookupAL A kv.1).isNone)).map
            (fun kv => (⟨kv.1, kv.2.render⟩ : DiffEntry)) := by
  intro B
  induction B with
  | nil => intro acc; simp
  | cons kv rest ih =>
    intro acc
    rw [List.foldl_cons]
    cases hl : lookupAL A kv.1 with
    | some v =>
      rw [comparePass2_some A acc kv v hl, ih acc]
      have hfil : (kv :: rest).filter (fun kv => (lookupAL A kv.1).isNone) =
          rest.filter (fun kv => (lookupAL A kv.1).isNone) := by
        simp [List.filter_cons, hl]
      rw [hfil]
    | none =>
      rw [comparePass2_none A acc kv hl, ih _]
      have hfil : (kv :: rest).filter (fun kv => (lookupAL A kv.1).isNone) =
          kv :: rest.filter (fun kv => (lookupAL A kv.1).isNone) := by
        simp [List.filter_cons, hl]
      rw [hfil]
      simp [List.append_assoc]

theorem comparePass1_unchanged_mono (B : GoMap) (acc : DiffResult)
    (kv : String × GoVal) :
    acc.unchanged ≤ (comparePass1 B acc kv).unchanged := by
  cases hl : lookupAL B kv.1 with
  | none =>
    rw [comparePass1_none B acc kv hl]
  | some val2 =>
    by_cases hh : hashValue kv.2 ≠ hashValue val2
    · rw [comparePass1_some_ne B acc kv val2 hl hh]
    · rw [comparePass1_some_eq B acc kv val2 hl hh]
      exact Nat.le_succ _

theorem pass1_unchanged_mono (B : GoMap) :
    ∀ (A : GoMap) (acc : DiffResult),
      acc.unchanged ≤ (A.foldl (comparePass1 B) acc).unchanged := by
  intro A
  induction A with
  | nil => intro acc; exact Nat.le_refl _
  | cons kv rest ih =>
    intro acc
    rw [List.foldl_cons]
    exact le_trans (comparePass1_unchanged_mono B acc kv) (ih _)

theorem pass1_unchanged_ge (B : GoMap) (k : String) (v1 v2 : GoVal)
    (hlk : lookupAL B k = some v2) (hhash : hashValue v1 = hashValue v2) :
    ∀ (A : GoMap) (acc : DiffResult), (k, v1) ∈ A →
      acc.unchanged + 1 ≤ (A.foldl (comparePass1 B) acc).unchanged := by
  intro A
  induction A with
  | nil => intro acc h; simp at h
  | cons kv rest ih =>
    intro acc hmem
    rw [List.foldl_cons]
    rcases List.mem_cons.mp hmem with h | h
    · have hstep : (comparePass1 B acc kv).unchanged = acc.unchanged + 1 := by
        rw [← h]
        rw [comparePass1_some_eq B acc (k, v1) v2 hlk (fun hne => hne hhash)]
      calc acc.unchanged + 1 = (comparePass1 B acc kv).unchanged := hstep.symm
        _ ≤ _ := pass1_unchanged_mono B rest _
    · have hs := comparePass1_unchanged_mono B acc kv
      have hrec := ih (comparePass1 B acc kv) h
      omega

theorem pass1_changed_ne (B : GoMap) (k : String) (v2 : GoVal)
    (hlk : lookupAL B k = some v2) :
    ∀ (A : GoMap) (acc : DiffResult),
      (∀ p ∈ A, p.1 = k → hashValue p.2 = hashValue v2) →
      (∀ e ∈ acc.changed, ChangedEntry.key e ≠ k) →
      ∀ e ∈ (A.foldl (comparePass1 B) acc).changed, ChangedEntry.key e ≠ k := by
  intro A
  induction A with
  | nil => intro acc _ hacc; exact hacc
  | cons kv rest ih =>
    intro acc hA hacc
    rw [List.foldl_cons]
    refine ih (comparePass1 B acc kv)
      (fun p hp => hA p (List.mem_cons_of_mem _ hp)) ?_
    intro e he
    cases hl : lookupAL B kv.1 with
    | none =>
      rw [comparePass1_none B acc kv hl] at he
      exact hacc e he
    | some val2 =>
      by_cases hh : hashValue kv.2 ≠ hashValue val2
      · rw [comparePass1_some_ne B acc kv val2 hl hh] at he
        rcases List.mem_append.mp he with hmem | hmem
        · exact hacc e hmem
        · have he2 := List.mem_singleton.mp hmem
          rw [he2]
          intro hkk
          have hk1 : kv.1 = k := hkk
          rw [hk1] at hl
          have hval : val2 = v2 := Option.some.inj (hl.symm.trans hlk)
          have heq := hA kv (List.mem_cons_self kv rest) hk1
          rw [hval] at hh
          exact hh heq
      · rw [comparePass1_some_eq B acc kv val2 hl hh] at he
        exact hacc e he

/-- C9: `CompareSecrets` classifies each key exactly once: the counts of
only-in-first, changed and unchanged keys sum to the size of the first
map; the only-in-second list holds exactly the keys of the second map
absent from the first; and all four counts together sum to the number of
distinct keys of the union of the two maps. -/
theorem claim_compare_partition (A B : GoMap) (hA : (keysOf A).Nodup)
    (hB : (keysOf B).Nodup) :
    ((compareSecrets A B).onlyInFirst.length +
      (compareSecrets A B).changed.length +
      (compareSecrets A B).unchanged = A.length) ∧
    (∀ k : String,
      (∃ e ∈ (compareSecrets A B).onlyInSecond, DiffEntry.key e = k) ↔
      k ∈ keysOf B ∧ k ∉ keysOf A) ∧
    ((compareSecrets A B).onlyInFirst.length +
      (compareSecrets A B).onlyInSecond.length +
      (compareSecrets A B).changed.length +
      (compareSecrets A B).unchanged =
      ((keysOf A).toFinset ∪ (keysOf B).toFinset).card) := by
  have hc1 : (compareSecrets A B).onlyInFirst =
      sortOn DiffEntry.key
        ((B.foldl (comparePass2 A)
          (A.foldl (comparePass1 B) ⟨[], [], [], 0⟩)).onlyInFirst) := rfl
  have hc2 : (compareSecrets A B).onlyInSecond =
      sortOn DiffEntry.key
        ((B.foldl (comparePass2 A)
          (A.foldl (comparePass1 B) ⟨[], [], [], 0⟩)).onlyInSecond) := rfl
  have hc3 : (compareSecrets A B).changed =
      sortOn ChangedEntry.key
        ((B.foldl (comparePass2 A)
          (A.foldl (comparePass1 B) ⟨[], [], [], 0⟩)).changed) := rfl
  have hc4 : (compareSecrets A B).unchanged =
      (B.foldl (comparePass2 A)
        (A.foldl (comparePass1 B) ⟨[], [], [], 0⟩)).unchanged := rfl
  obtain ⟨hp1, hp1s⟩ := pass1_counts B A (⟨[], [], [], 0⟩ : DiffResult)
  obtain ⟨hf1, hf3, hf4⟩ :=
    pass2_fields A B (A.foldl (comparePass1 B) (⟨[], [], [], 0⟩ : DiffResult))
  have hsnd :=
    pass2_onlyInSecond A B
      (A.foldl (comparePass1 B) (⟨[], [], [], 0⟩ : DiffResult))
  rw [hp1s] at hsnd
  rw [show (⟨[], [], [], 0⟩ : DiffResult).onlyInSecond = [] from rfl] at hsnd
  rw [List.nil_append] at hsnd
  have hp1z : (A.foldl (comparePass1 B)
        (⟨[], [], [], 0⟩ : DiffResult)).onlyInFirst.length +
      (A.foldl (comparePass1 B) (⟨[], [], [], 0⟩ : DiffResult)).changed.length +
      (A.foldl (comparePass1 B) (⟨[], [], [], 0⟩ : DiffResult)).unchanged =
      A.length := by
    rw [hp1]
    simp
  have hcard : ((keysOf A).toFinset ∪ (keysOf B).toFinset).card =
      A.length + (B.filter (fun kv => (lookupAL A kv.1).isNone)).length := by
    have hflen : (B.filter (fun kv => (lookupAL A kv.1).isNone)).length =
        ((keysOf B).filter (fun s => (lookupAL A s).isNone)).length := by
      unfold keysOf
      rw [List.filter_map]
      simp only [List.length_map]
      rfl
    have hset : (keysOf B).toFinset \ (keysOf A).toFinset =
        ((keysOf B).filter (fun s => (lookupAL A s).isNone)).toFinset := by
      ext x
      simp only [Finset.mem_sdiff, List.mem_toFinset, List.mem_filter]
      rw [lookupAL_isNone_iff]
    have hunion : ((keysOf A).toFinset ∪ (keysOf B).toFinset).card =
        (keysOf A).toFinset.card +
          ((keysOf B).toFinset \ (keysOf A).toFinset).card := by
      rw [← Finset.union_sdiff_self_eq_union,
        Finset.card_union_of_disjoint Finset.disjoint_sdiff]
    have hlenA : (keysOf A).toFinset.card = A.length := by
      rw [List.toFinset_card_of_nodup hA]
      simp [keysOf]
    have hlenBdiff : ((keysOf B).toFinset \ (keysOf A).toFinset).card =
        ((keysOf B).filter (fun s => (lookupAL A s).isNone)).length := by
      rw [hset, List.toFinset_card_of_nodup (hB.filter _)]
    rw [hunion, hlenA, hlenBdiff, hflen]
  refine ⟨?_, ?_, ?_⟩
  · rw [hc1, hc3, hc4, sortOn_length, sortOn_length, hf1, hf3, hf4]
    exact hp1z
  · intro k
    rw [hc2]
    constructor
    · rintro ⟨e, he, hek⟩
      rw [sortOn_mem, hsnd] at he
      obtain ⟨kv, hkv, hfe⟩ := List.mem_map.mp he
      obtain ⟨hkvB, hkvp⟩ := List.mem_filter.mp hkv
      have hk1 : kv.1 = k := by rw [← hfe] at hek; exact hek
      constructor
      · exact mem_keysOf.mpr ⟨kv.2, by rw [← hk1]; exact hkvB⟩
      · rw [← hk1]
        exact (lookupAL_isNone_iff A kv.1).mp hkvp
    · rintro ⟨hkB, hkA⟩
      obtain ⟨v, hv⟩ := mem_keysOf.mp hkB
      refine ⟨⟨k, v.render⟩, ?_, rfl⟩
      rw [sortOn_mem, hsnd]
      exact List.mem_map.mpr
        ⟨(k, v), List.mem_filter.mpr
          ⟨hv, (lookupAL_isNone_iff A k).mpr hkA⟩, rfl⟩
  · have e4 : (compareSecrets A B).onlyInSecond.length =
        (B.filter (fun kv => (lookupAL A kv.1).isNone)).length := by
      rw [hc2, sortOn_length, hsnd, List.length_map]
    have e1 : (compareSecrets A B).onlyInFirst.length =
        (A.foldl (comparePass1 B)
          (⟨[], [], [], 0⟩ : DiffResult)).onlyInFirst.length := by
      rw [hc1, sortOn_length, hf1]
    have e3 : (compareSecrets A B).changed.length =
        (A.foldl (comparePass1 B)
          (⟨[], [], [], 0⟩ : DiffResult)).changed.length := by
      rw [hc3, sortOn_length, hf3]
    have e5 : (compareSecrets A B).unchanged =
        (A.foldl (comparePass1 B) (⟨[], [], [], 0⟩ : DiffResult)).unchanged := by
      rw [hc4, hf4]
    rw [e1, e3, e4, e5, hcard]
    omega

/-- Closed witness for C9 at a concrete pair of maps. -/
theorem claim_compare_partition_witness :
    ((compareSecrets compareSampleA compareSampleB).onlyInFirst.length +
      (compareSecrets compareSampleA compareSampleB).changed.length +
      (compareSecrets compareSampleA compareSampleB).unchanged =
      compareSampleA.length) ∧
    ((∃ e ∈ (compareSecrets compareSampleA compareSampleB).onlyInSecond,
        DiffEntry.key e = "c") ↔
      "c" ∈ keysOf compareSampleB ∧ "c" ∉ keysOf compareSampleA) ∧
    ((compareSecrets compareSampleA compareSampleB).onlyInFirst.length +
      (compareSecrets compareSampleA compareSampleB).onlyInSecond.length +
      (compareSecrets compareSampleA compareSampleB).changed.length +
      (compareSecrets compareSampleA compareSampleB).unchanged =
      ((keysOf compareSampleA).toFinset ∪
        (keysOf compareSampleB).toFinset).card) :=
  have h := claim_compare_partition compareSampleA compareSampleB
    (by decide) (by decide)
  ⟨h.1, h.2.1 "c", h.2.2⟩

/-- C10: `CompareSecrets` judges equality through the SHA-256 hash of
the default string rendering, so a key present in both maps whose two
values render identically — even across dynamic types, such as the
integer 1 and the string "1" — is never reported as changed and is
counted as unchanged. -/
theorem claim_compare_hash_rendering (A B : GoMap) (k : String)
    (v1 v2 : GoVal) (hA : (keysOf A).Nodup) (hmem : (k, v1) ∈ A)
    (hlk : lookupAL B k = some v2) (hrender : v1.render = v2.render) :
    (∀ e ∈ (compareSecrets A B).changed, ChangedEntry.key e ≠ k) ∧
    1 ≤ (compareSecrets A B).unchanged := by
  have hhash : hashValue v1 = hashValue v2 :=
    congrArg (fun s => hexEncode (sha256Bytes (utf8Bytes s))) hrender
  have hc3 : (compareSecrets A B).changed =
      sortOn ChangedEntry.key
        ((B.foldl (comparePass2 A)
          (A.foldl (comparePass1 B) ⟨[], [], [], 0⟩)).changed) := rfl
  have hc4 : (compareSecrets A B).unchanged =
      (B.foldl (comparePass2 A)
        (A.foldl (comparePass1 B) ⟨[], [], [], 0⟩)).unchanged := rfl
  constructor
  · intro e he
    rw [hc3, sortOn_mem,
      (pass2_fields A B
        (A.foldl (comparePass1 B) (⟨[], [], [], 0⟩ : DiffResult))).2.1] at he
    refine pass1_changed_ne B k v2 hlk A (⟨[], [], [], 0⟩ : DiffResult)
      ?_ ?_ e he
    · intro p hp hpk
      have hlkA : lookupAL A k = some v1 := lookupAL_of_mem_nodup A k v1 hA hmem
      have hp2 : p.2 = v1 := lookupAL_val_unique A k v1 hA hlkA p hp hpk
      rw [hp2]
      exact hhash
    · intro e0 he0
      simp at he0
  · rw [hc4,
      (pass2_fields A B
        (A.foldl (comparePass1 B) (⟨[], [], [], 0⟩ : DiffResult))).2.2]
    have h := pass1_unchanged_ge B k v1 v2 hlk hhash A
      (⟨[], [], [], 0⟩ : DiffResult) hmem
    simpa using h

/-- Closed witness for C10: the integer 1 and the string "1" render
identically, so the shared key is unchanged, not changed. -/
theorem claim_compare_hash_rendering_witness :
    (∀ e ∈ (compareSecrets [("x", GoVal.int 1)] [("x", GoVal.str "1")]).changed,
      ChangedEntry.key e ≠ "x") ∧
    1 ≤ (compareSecrets [("x", GoVal.int 1)] [("x", GoVal.str "1")]).unchanged :=
  claim_compare_hash_rendering [("x", GoVal.int 1)] [("x", GoVal.str "1")]
    "x" (GoVal.int 1) (GoVal.str "1") (by decide)
    (List.mem_singleton.mpr rfl) rfl (by decide)

end Vlt
